import Mathlib

/-!
Verification development for `go-mods/initials`.

A shallow embedding of `initials.go` and theorems about `GetInitials`.

Representation:

* A Go `string` is represented by the sequence of its codepoints
  (`Str = List Nat`), i.e. the value of `[]rune(s)` for a well-formed UTF-8
  string.  The Go builtin `len` on strings counts **bytes**; it is embedded as
  `len`, the sum of the UTF-8 widths of the codepoints.
* Go `int` is embedded as `Int`.
* A run-time panic (slice bounds out of range, index out of range) is the
  result `none`; a normal return of the string `s` is `some s`.
* The Unicode case tables of the Go standard library (`unicode.To`) and the
  package level variable `friendlyCharactersMap` (declared in another file of
  the package) are parameters of the embedding.
-/

namespace Initials

/-- A Go string, as the sequence of its codepoints. -/
abbrev Str := List Nat

/-- Codepoints of a Lean string literal, used to write inputs readably. -/
def runes (s : String) : Str := s.data.map Char.toNat

/-- Number of bytes of the UTF-8 encoding of one codepoint (`utf8.RuneLen`). -/
def runeLen (r : Nat) : Nat :=
  if r < 0x80 then 1 else if r < 0x800 then 2 else if r < 0x10000 then 3 else 4

/-- The Go builtin `len` on a string: the number of bytes. -/
def len (s : Str) : Nat := (s.map runeLen).sum

/-- The struct `generatorOptions`. -/
structure generatorOptions where
  Name : Str
  Separator : Str
  Sensitive : Bool
  Lowercase : Bool
  Uppercase : Bool
  CamelCase : Bool
  SpecialChars : Bool
  Length : Int
  WordLength : Bool
  remainingLength : Int
deriving DecidableEq, Repr

/-- The Go type `Option`, `func(*generatorOptions)`: a state transformer. -/
abbrev OptionFunc := generatorOptions → generatorOptions

def WithSeparator (separator : Str) : OptionFunc :=
  fun o => { o with Separator := separator }

def WithSensitive : OptionFunc :=
  fun o => { o with Sensitive := true, Lowercase := false, Uppercase := false, CamelCase := false }

def WithLowercase : OptionFunc :=
  fun o => { o with Lowercase := true, Sensitive := false, Uppercase := false, CamelCase := false }

def WithUppercase : OptionFunc :=
  fun o => { o with Uppercase := true, Sensitive := false, Lowercase := false, CamelCase := false }

def WithCamelCase : OptionFunc :=
  fun o => { o with CamelCase := true, Sensitive := false, Lowercase := false, Uppercase := false }

def WithLength (length : Int) : OptionFunc :=
  fun o => { o with Length := length, remainingLength := length }

def WithWordLength : OptionFunc :=
  fun o => { o with WordLength := true }

/-- The options that the public constructors of the package can build. -/
inductive PublicOption : OptionFunc → Prop
  | separator (s : Str) : PublicOption (WithSeparator s)
  | sensitive : PublicOption WithSensitive
  | lowercase : PublicOption WithLowercase
  | uppercase : PublicOption WithUppercase
  | camelCase : PublicOption WithCamelCase
  | length (n : Int) : PublicOption (WithLength n)
  | wordLength : PublicOption WithWordLength

/-- The case tables of the Go standard library outside ASCII:
`upper r` is `unicode.To(unicode.UpperCase, r)` and `lower r` is
`unicode.To(unicode.LowerCase, r)`. -/
structure CaseTables where
  upper : Nat → Nat
  lower : Nat → Nat

/-- Go `unicode.ToUpper`: ASCII is handled by arithmetic, the rest by table. -/
def unicode.ToUpper (t : CaseTables) (r : Nat) : Nat :=
  if r ≤ 0x7F then
    if 0x61 ≤ r ∧ r ≤ 0x7A then r - 0x20 else r
  else t.upper r

/-- Go `unicode.ToLower`. -/
def unicode.ToLower (t : CaseTables) (r : Nat) : Nat :=
  if r ≤ 0x7F then
    if 0x41 ≤ r ∧ r ≤ 0x5A then r + 0x20 else r
  else t.lower r

/-- Go `strings.ToUpper`: maps `unicode.ToUpper` over the codepoints. -/
def strings.ToUpper (t : CaseTables) (s : Str) : Str := s.map (unicode.ToUpper t)

/-- Go `strings.ToLower`. -/
def strings.ToLower (t : CaseTables) (s : Str) : Str := s.map (unicode.ToLower t)

/-- Scanning loop of `strings.Replace(s, old, new, -1)` for a non-empty `old`:
the first argument counts the codepoints of a match still to be skipped. -/
def strings.replaceScan (old new : Str) : Nat → Str → Str
  | _, [] => []
  | k + 1, _ :: rest => strings.replaceScan old new k rest
  | 0, c :: rest =>
    if old.isPrefixOf (c :: rest) then new ++ strings.replaceScan old new (old.length - 1) rest
    else c :: strings.replaceScan old new 0 rest

/-- Go `strings.Replace(s, old, new, -1)`.  An empty `old` matches before every
codepoint and at the end of the string. -/
def strings.Replace (s old new : Str) : Str :=
  if old = new then s
  else
    match old with
    | [] => new ++ (s.map (fun r => r :: new)).flatten
    | _ :: _ => strings.replaceScan old new 0 s

/-- Loop of `strings.FieldsFunc`: `cur` is the field being read. -/
def strings.fieldsLoop (f : Nat → Bool) : Str → Str → List Str
  | [], cur => if cur = [] then [] else [cur]
  | c :: rest, cur =>
    if f c then
      if cur = [] then strings.fieldsLoop f rest []
      else cur :: strings.fieldsLoop f rest []
    else strings.fieldsLoop f rest (cur ++ [c])

/-- Go `strings.FieldsFunc`: the maximal runs of codepoints not satisfying `f`. -/
def strings.FieldsFunc (s : Str) (f : Nat → Bool) : List Str :=
  strings.fieldsLoop f s []

/-- The character class `[!@#$%^&*(),.?":{}|<>_]` of the first pattern. -/
def specialClass : List Nat :=
  [0x21, 0x40, 0x23, 0x24, 0x25, 0x5E, 0x26, 0x2A, 0x28, 0x29, 0x2C, 0x2E, 0x3F, 0x22,
   0x3A, 0x7B, 0x7D, 0x7C, 0x3C, 0x3E, 0x5F]

/-- Go `(*Regexp).ReplaceAllString(s, "")` for a pattern whose matches all have
`width + 1` codepoints, `m` telling whether the pattern matches at the start of
a string: matches are found left to right and do not overlap.  The first
argument counts the codepoints of a match still to be deleted. -/
def regexpDeleteAll (m : Str → Bool) (width : Nat) : Nat → Str → Str
  | _, [] => []
  | k + 1, _ :: rest => regexpDeleteAll m width k rest
  | 0, a :: rest =>
    if m (a :: rest) then regexpDeleteAll m width width rest
    else a :: regexpDeleteAll m width 0 rest

/-- The pattern `/[!@#$%^&*(),.?":{}|<>_]/` at the start of a string: a slash,
one character of the class and a slash. -/
def matchSpecial : Str → Bool
  | a :: c :: b :: _ => a == 0x2F && specialClass.contains c && b == 0x2F
  | _ => false

/-- The pattern `/[^\x20-\x7E]/u` at the start of a string: a slash, one
codepoint outside `0x20..0x7E`, a slash and the letter `u`. -/
def matchNonPrintable : Str → Bool
  | a :: c :: b :: d :: _ => a == 0x2F && !(0x20 ≤ c && c ≤ 0x7E) && b == 0x2F && d == 0x75
  | _ => false

/-- The function `replaceSpecialCharacters`. -/
def replaceSpecialCharacters (name : Str) : Str :=
  regexpDeleteAll matchSpecial 2 0 name

/-- The last two lines of `replaceFriendlyCharacters`. -/
def stripNonPrintable (name : Str) : Str :=
  regexpDeleteAll matchNonPrintable 3 0 name

/-- The function `replaceFriendlyCharacters`.  The map is iterated in the order
of the list `friendlyCharactersMap` (Go leaves the order unspecified: every
order is some list). -/
def replaceFriendlyCharacters (friendlyCharactersMap : List (Str × List Str)) (name : Str) : Str :=
  let name := friendlyCharactersMap.foldl
    (fun name kv => kv.2.foldl (fun name char => strings.Replace name char kv.1) name) name
  stripNonPrintable name

/-- The function `getInitial`.  `none` is a run-time panic: the slice
`runes[0:length]` with a negative `length`, or `ir[0]` on an empty slice. -/
def getInitial (t : CaseTables) (word : Str) (length : Int) (opts : generatorOptions) :
    Option Str :=
  if len word = 0 then some []
  else
    let length := if (len word : Int) < length then (len word : Int) else length
    let runes := word
    let length := if (runes.length : Int) < length then (runes.length : Int) else length
    if length < 0 then none
    else
      let initial := runes.take length.toNat
      if opts.Sensitive then some initial
      else if opts.Lowercase then some (strings.ToLower t initial)
      else if opts.Uppercase then some (strings.ToUpper t initial)
      else if opts.CamelCase then
        match initial with
        | [] => none
        | r :: ir => some (unicode.ToUpper t r :: ir)
      else some initial

/-- The block of the loop body of `GetInitials` that determines the length of
the initial of word `i` out of `n`.  The quotient
`math.Floor(float64(a) / float64(b))` is taken only for `a > b > 0` and is the
integer quotient (exactly so for every `a` below `2^53`). -/
def initialLength (n i : Nat) (remainingLength : Int) : Int :=
  let length : Int :=
    if i = 0 ∧ n > 1 then 1
    else if remainingLength < (n : Int) - (i : Int) then 1
    else if remainingLength > (n : Int) - (i : Int) then
      remainingLength / ((n : Int) - (i : Int))
    else 1
  if (i : Int) = (n : Int) - 1 then remainingLength else length

/-- The loop `for i, word := range words` of `GetInitials`; `n` is `len(words)`,
`i` the index of the first word of the list still to be visited. -/
def wordLoop (t : CaseTables) (n : Nat) :
    Nat → List Str → generatorOptions → Str → Option Str
  | _, [], _, initials => some initials
  | i, word :: rest, opts, initials =>
    if opts.remainingLength = 0 then some initials
    else
      match getInitial t word (initialLength n i opts.remainingLength) opts with
      | none => none
      | some initial =>
        let opts := { opts with remainingLength := opts.remainingLength - (len initial : Int) }
        let initials := initials ++ initial
        let initials :=
          if len initials > 0 ∧ opts.remainingLength > 0 then initials ++ opts.Separator
          else initials
        wordLoop t n (i + 1) rest opts initials

/-- The default generator options set at the start of `GetInitials`. -/
def defaultOptions (name : Str) : generatorOptions :=
  { Name := name, Separator := [], Sensitive := false, Lowercase := false, Uppercase := true,
    CamelCase := false, SpecialChars := false, Length := 2, WordLength := false,
    remainingLength := 2 }

/-- The delimiter test passed to `strings.FieldsFunc`: space or hyphen. -/
def isDelimiter (r : Nat) : Bool := r == 0x20 || r == 0x2D

/-- The function `GetInitials`. -/
def GetInitials (t : CaseTables) (friendlyCharactersMap : List (Str × List Str))
    (name : Str) (options : List OptionFunc) : Option Str :=
  let opts := options.foldl (fun opts option => option opts) (defaultOptions name)
  let opts := if !opts.SpecialChars then { opts with Name := replaceSpecialCharacters opts.Name }
    else opts
  let opts := { opts with Name := replaceFriendlyCharacters friendlyCharactersMap opts.Name }
  let words := strings.FieldsFunc opts.Name isDelimiter
  if words.length = 0 then some []
  else
    let opts := if opts.WordLength then
        { opts with Length := (words.length : Int), remainingLength := (words.length : Int) }
      else opts
    wordLoop t words.length 0 words opts []

/-- Modelled from the spec: the package variable `friendlyCharactersMap` is
declared outside `initials.go`; the specification requires it to map plain ASCII
letters to their accented variants, covering at least the Latin-1 Supplement
accented letters for a, e, i, o, u, c, n, y and their uppercase forms. -/
def friendlyLatin1 : List (Str × List Str) :=
  [ ([0x61], [[0xE0], [0xE1], [0xE2], [0xE3], [0xE4], [0xE5]]),
    ([0x41], [[0xC0], [0xC1], [0xC2], [0xC3], [0xC4], [0xC5]]),
    ([0x63], [[0xE7]]),
    ([0x43], [[0xC7]]),
    ([0x65], [[0xE8], [0xE9], [0xEA], [0xEB]]),
    ([0x45], [[0xC8], [0xC9], [0xCA], [0xCB]]),
    ([0x69], [[0xEC], [0xED], [0xEE], [0xEF]]),
    ([0x49], [[0xCC], [0xCD], [0xCE], [0xCF]]),
    ([0x6E], [[0xF1]]),
    ([0x4E], [[0xD1]]),
    ([0x6F], [[0xF2], [0xF3], [0xF4], [0xF5], [0xF6]]),
    ([0x4F], [[0xD2], [0xD3], [0xD4], [0xD5], [0xD6]]),
    ([0x75], [[0xF9], [0xFA], [0xFB], [0xFC]]),
    ([0x55], [[0xD9], [0xDA], [0xDB], [0xDC]]),
    ([0x79], [[0xFD], [0xFF]]),
    ([0x59], [[0xDD]]) ]

/-- A fragment of the Unicode simple case mappings, used to evaluate the code
on concrete inputs: LATIN SMALL LETTER A WITH STROKE `U+2C65` (three bytes) has
uppercase `U+023A` (two bytes), KELVIN SIGN `U+212A` (three bytes) has lowercase
`k`, and the other codepoints outside ASCII on which the evaluations of this
file use it (emoji, and these two letters in the other direction) are left
unchanged by the Go tables. -/
def caseFragment : CaseTables :=
  { upper := fun r => if r = 0x2C65 then 0x23A else r
    lower := fun r => if r = 0x212A then 0x6B else r }

/-! ## Auxiliary definitions used to state the theorems -/

/-- The casing step at the end of `getInitial`, applied to the extracted
codepoints. -/
def applyCase (t : CaseTables) (opts : generatorOptions) (initial : Str) : Str :=
  if opts.Sensitive then initial
  else if opts.Lowercase then strings.ToLower t initial
  else if opts.Uppercase then strings.ToUpper t initial
  else if opts.CamelCase then
    match initial with
    | [] => []
    | r :: ir => unicode.ToUpper t r :: ir
  else initial

/-- An ASCII letter, `A..Z` or `a..z`. -/
def isASCIILetter (c : Nat) : Prop := (0x41 ≤ c ∧ c ≤ 0x5A) ∨ (0x61 ≤ c ∧ c ≤ 0x7A)

instance : DecidablePred isASCIILetter := fun c => by unfold isASCIILetter; infer_instance

/-- Uppercase of an ASCII letter. -/
def upperASCII (c : Nat) : Nat := if 0x61 ≤ c ∧ c ≤ 0x7A then c - 0x20 else c

/-- A name made of ASCII letters, spaces and hyphens only. -/
def LetterName (name : Str) : Prop := ∀ c ∈ name, isASCIILetter c ∨ c = 0x20 ∨ c = 0x2D

instance : DecidablePred LetterName := fun name => by unfold LetterName; infer_instance

/-- Every variant listed in the friendly-character map contains a codepoint
outside ASCII (the variants are accented letters). -/
def FriendlyNonASCII (m : List (Str × List Str)) : Prop :=
  ∀ kv ∈ m, ∀ v ∈ kv.2, ∃ c ∈ v, 0x7F < c

instance : DecidablePred FriendlyNonASCII := fun m => by unfold FriendlyNonASCII; infer_instance

/-- The name after the two filters of `GetInitials` (special characters are
never allowed by the public options). -/
def filterName (m : List (Str × List Str)) (name : Str) : Str :=
  replaceFriendlyCharacters m (replaceSpecialCharacters name)

/-- The words of the filtered name. -/
def wordsOf (m : List (Str × List Str)) (name : Str) : List Str :=
  strings.FieldsFunc (filterName m name) isDelimiter

/-- The configuration after the options have been applied to the defaults. -/
def applyOptions (name : Str) (options : List OptionFunc) : generatorOptions :=
  options.foldl (fun opts option => option opts) (defaultOptions name)

/-- The four case-mode options. -/
def caseOptions : List OptionFunc := [WithSensitive, WithLowercase, WithUppercase, WithCamelCase]

/-- The public options other than `WithLength` and `WithWordLength`. -/
inductive OtherOption : OptionFunc → Prop
  | separator (s : Str) : OtherOption (WithSeparator s)
  | sensitive : OtherOption WithSensitive
  | lowercase : OtherOption WithLowercase
  | uppercase : OtherOption WithUppercase
  | camelCase : OtherOption WithCamelCase

/-- Two configurations with the same separator and the same case flags. -/
def SameStyle (o1 o2 : generatorOptions) : Prop :=
  o1.Separator = o2.Separator ∧ o1.Sensitive = o2.Sensitive ∧ o1.Lowercase = o2.Lowercase ∧
    o1.Uppercase = o2.Uppercase ∧ o1.CamelCase = o2.CamelCase

/-- A contribution with its first character replaced by its uppercase and
every other character unchanged. -/
def capitalizeFirst : Str → Str
  | [] => []
  | c :: rest => upperASCII c :: rest

/-- A call of one of the public option constructors, as data. -/
inductive OptionCall
  | withSeparator (s : Str)
  | withSensitive
  | withLowercase
  | withUppercase
  | withCamelCase
  | withLength (n : Int)
  | withWordLength

/-- The option built by a constructor call. -/
def OptionCall.toOption : OptionCall → OptionFunc
  | OptionCall.withSeparator s => WithSeparator s
  | OptionCall.withSensitive => WithSensitive
  | OptionCall.withLowercase => WithLowercase
  | OptionCall.withUppercase => WithUppercase
  | OptionCall.withCamelCase => WithCamelCase
  | OptionCall.withLength n => WithLength n
  | OptionCall.withWordLength => WithWordLength

/-- Whether a call is one of the four case options. -/
def OptionCall.isCase : OptionCall → Bool
  | OptionCall.withSensitive => true
  | OptionCall.withLowercase => true
  | OptionCall.withUppercase => true
  | OptionCall.withCamelCase => true
  | _ => false

/-- The four case flags `(Sensitive, Lowercase, Uppercase, CamelCase)`. -/
def caseFlags (o : generatorOptions) : Bool × Bool × Bool × Bool :=
  (o.Sensitive, o.Lowercase, o.Uppercase, o.CamelCase)

/-- The flags of the last case option of a sequence of calls, those of
`Uppercase` when the sequence has no case option. -/
def lastCaseFlags (calls : List OptionCall) : Bool × Bool × Bool × Bool :=
  match (calls.filter OptionCall.isCase).getLast? with
  | some OptionCall.withSensitive => (true, false, false, false)
  | some OptionCall.withLowercase => (false, true, false, false)
  | some OptionCall.withCamelCase => (false, false, false, true)
  | _ => (false, false, true, false)

/-- A sequence of calls with every case option removed except the last one. -/
def dropEarlierCases : List OptionCall → List OptionCall
  | [] => []
  | c :: cs =>
    if c.isCase && cs.any OptionCall.isCase then dropEarlierCases cs
    else c :: dropEarlierCases cs

/-- Two configurations that agree on every field other than the case flags. -/
def SameButCase (o1 o2 : generatorOptions) : Prop :=
  o1.Name = o2.Name ∧ o1.Separator = o2.Separator ∧ o1.SpecialChars = o2.SpecialChars ∧
    o1.Length = o2.Length ∧ o1.WordLength = o2.WordLength ∧
    o1.remainingLength = o2.remainingLength

/-- The keys of the friendly-character map are non-empty strings of ASCII
letters (the plain letters that replace the variants). -/
def FriendlyKeysLetters (m : List (Str × List Str)) : Prop :=
  ∀ kv ∈ m, kv.1 ≠ [] ∧ ∀ c ∈ kv.1, isASCIILetter c

instance : DecidablePred FriendlyKeysLetters := fun m => by
  unfold FriendlyKeysLetters; infer_instance

/-- The folding loop of `replaceFriendlyCharacters`: the name before the
second pattern is applied. -/
def foldFriendly (m : List (Str × List Str)) (name : Str) : Str :=
  m.foldl (fun name kv => kv.2.foldl (fun name char => strings.Replace name char kv.1) name)
    name

/-- Whether a pattern matches at some position of a string. -/
def hasMatch (m : Str → Bool) : Str → Bool
  | [] => false
  | a :: rest => m (a :: rest) || hasMatch m rest

/-- The length apportioned to word `i` of `n` while `r > 0` codepoints remain,
as section 4.3 of the specification gives it: `1` for the first of several
words, `1` when fewer codepoints remain than words, the floor of the quotient
when more remain, `1` when as many remain, and all that remains for the last
word. -/
def specLength (n i r : Nat) : Nat :=
  if i + 1 = n then r
  else if i = 0 ∧ n > 1 then 1
  else if r < n - i then 1
  else if r > n - i then r / (n - i)
  else 1

/-- The contributions of the words `i, i+1, ...` of `n` with a budget of `r`
codepoints, as section 4.3 of the specification gives them: nothing once the
budget is spent; otherwise the word contributes its first `specLength`
codepoints (fewer if it is shorter) and the budget decreases by the number of
codepoints taken. -/
def specPieces (n : Nat) : Nat → Nat → List Str → List Str
  | _, _, [] => []
  | i, r, w :: rest =>
    if r = 0 then []
    else w.take (specLength n i r) ::
      specPieces n (i + 1) (r - (w.take (specLength n i r)).length) rest

/-! ## Lemmas on the string primitives -/

theorem runeLen_pos (r : Nat) : 1 ≤ runeLen r := by
  unfold runeLen; split_ifs <;> omega

theorem len_nil : len [] = 0 := rfl

theorem len_cons (c : Nat) (s : Str) : len (c :: s) = runeLen c + len s := by
  simp [len]

theorem len_append (a b : Str) : len (a ++ b) = len a + len b := by
  simp [len]

theorem length_le_len (s : Str) : s.length ≤ len s := by
  induction s with
  | nil => simp [len]
  | cons c s ih =>
    have := runeLen_pos c
    rw [len_cons, List.length_cons]; omega

theorem len_eq_zero_iff (s : Str) : len s = 0 ↔ s = [] := by
  constructor
  · intro h
    have := length_le_len s
    exact List.length_eq_zero.mp (by omega)
  · rintro rfl; rfl

theorem len_of_ascii (s : Str) (h : ∀ c ∈ s, c ≤ 0x7F) : len s = s.length := by
  induction s with
  | nil => rfl
  | cons c s ih =>
    have hc : c ≤ 0x7F := h c (by simp)
    have hs : len s = s.length := ih (fun d hd => h d (by simp [hd]))
    rw [len_cons, hs, List.length_cons]
    unfold runeLen
    split_ifs <;> omega

theorem regexpDeleteAll_of_no_match (m : Str → Bool) (w : Nat) (s : Str)
    (h : ∀ a rest, a ∈ s → m (a :: rest) = false) : regexpDeleteAll m w 0 s = s := by
  induction s with
  | nil => rfl
  | cons a s ih =>
    have h1 : m (a :: s) = false := h a s (by simp)
    have h2 : regexpDeleteAll m w 0 s = s := ih (fun b rest hb => h b rest (by simp [hb]))
    simp [regexpDeleteAll, h1, h2]

theorem matchSpecial_of_ne (a : Nat) (rest : Str) (h : a ≠ 0x2F) :
    matchSpecial (a :: rest) = false := by
  rcases rest with _ | ⟨c, _ | ⟨b, r⟩⟩ <;> simp [matchSpecial, h]

theorem matchNonPrintable_of_ne (a : Nat) (rest : Str) (h : a ≠ 0x2F) :
    matchNonPrintable (a :: rest) = false := by
  rcases rest with _ | ⟨c, _ | ⟨b, _ | ⟨d, r⟩⟩⟩ <;> simp [matchNonPrintable, h]

theorem replaceSpecialCharacters_of_no_slash (name : Str) (h : ∀ c ∈ name, c ≠ 0x2F) :
    replaceSpecialCharacters name = name :=
  regexpDeleteAll_of_no_match _ _ _ (fun a rest ha => matchSpecial_of_ne a rest (h a ha))

theorem stripNonPrintable_of_no_slash (name : Str) (h : ∀ c ∈ name, c ≠ 0x2F) :
    stripNonPrintable name = name :=
  regexpDeleteAll_of_no_match _ _ _ (fun a rest ha => matchNonPrintable_of_ne a rest (h a ha))

theorem replaceScan_of_absent (old new s : Str) (h : ∃ c ∈ old, c ∉ s) :
    strings.replaceScan old new 0 s = s := by
  induction s with
  | nil => rfl
  | cons a s ih =>
    obtain ⟨c, hc, hcs⟩ := h
    have hp : old.isPrefixOf (a :: s) = false := by
      cases hq : old.isPrefixOf (a :: s) with
      | false => rfl
      | true => exact absurd ((List.isPrefixOf_iff_prefix.mp hq).subset hc) hcs
    have h2 : strings.replaceScan old new 0 s = s :=
      ih ⟨c, hc, fun h3 => hcs (List.mem_cons_of_mem _ h3)⟩
    simp [strings.replaceScan, hp, h2]

theorem Replace_of_absent (s old new : Str) (h : ∃ c ∈ old, c ∉ s) :
    strings.Replace s old new = s := by
  unfold strings.Replace
  split_ifs with h1
  · rfl
  · cases old with
    | nil => obtain ⟨c, hc, _⟩ := h; simp at hc
    | cons a o => exact replaceScan_of_absent _ _ _ h

theorem foldl_Replace_of_ascii (key : Str) (vs : List Str) (name : Str)
    (hv : ∀ v ∈ vs, ∃ c ∈ v, 0x7F < c) (hn : ∀ c ∈ name, c ≤ 0x7F) :
    vs.foldl (fun name char => strings.Replace name char key) name = name := by
  induction vs with
  | nil => rfl
  | cons v vs ih =>
    obtain ⟨c, hc, hlt⟩ := hv v (by simp)
    have h1 : strings.Replace name v key = name :=
      Replace_of_absent _ _ _ ⟨c, hc, fun hmem => by have := hn c hmem; omega⟩
    simp only [List.foldl_cons, h1]
    exact ih (fun w hw => hv w (by simp [hw]))

theorem foldl_friendly_of_ascii (m : List (Str × List Str)) (name : Str)
    (hm : FriendlyNonASCII m) (hn : ∀ c ∈ name, c ≤ 0x7F) :
    m.foldl (fun name kv => kv.2.foldl (fun name char => strings.Replace name char kv.1) name)
      name = name := by
  induction m with
  | nil => rfl
  | cons kv m ih =>
    have h1 := foldl_Replace_of_ascii kv.1 kv.2 name (hm kv (by simp)) hn
    simp only [List.foldl_cons, h1]
    exact ih (fun kv2 hkv => hm kv2 (by simp [hkv]))

/-- On a name of ASCII codepoints without a slash both filters are the identity. -/
theorem filters_of_plain (m : List (Str × List Str)) (name : Str)
    (hm : FriendlyNonASCII m) (hn : ∀ c ∈ name, c ≤ 0x7F ∧ c ≠ 0x2F) :
    replaceFriendlyCharacters m (replaceSpecialCharacters name) = name := by
  rw [replaceSpecialCharacters_of_no_slash name (fun c hc => (hn c hc).2)]
  unfold replaceFriendlyCharacters
  simp only
  rw [foldl_friendly_of_ascii m name hm (fun c hc => (hn c hc).1)]
  exact stripNonPrintable_of_no_slash name (fun c hc => (hn c hc).2)

theorem LetterName.plain {name : Str} (h : LetterName name) :
    ∀ c ∈ name, c ≤ 0x7F ∧ c ≠ 0x2F := by
  intro c hc
  rcases h c hc with h1 | h1 | h1
  · unfold isASCIILetter at h1; omega
  · omega
  · omega

theorem fieldsLoop_mem (f : Nat → Bool) (s cur w : Str)
    (hw : w ∈ strings.fieldsLoop f s cur) :
    w ≠ [] ∧ ∀ c ∈ w, c ∈ cur ∨ (c ∈ s ∧ f c = false) := by
  induction s generalizing cur with
  | nil =>
    unfold strings.fieldsLoop at hw
    split_ifs at hw with h1
    · simp at hw
    · simp at hw; subst hw; exact ⟨h1, fun c hc => Or.inl hc⟩
  | cons a s ih =>
    unfold strings.fieldsLoop at hw
    split_ifs at hw with h1 h2
    · obtain ⟨h3, h4⟩ := ih [] hw
      refine ⟨h3, fun c hc => ?_⟩
      rcases h4 c hc with h5 | h5
      · simp at h5
      · exact Or.inr ⟨List.mem_cons_of_mem _ h5.1, h5.2⟩
    · rcases List.mem_cons.mp hw with h3 | h3
      · subst h3; exact ⟨h2, fun c hc => Or.inl hc⟩
      · obtain ⟨h4, h5⟩ := ih [] h3
        refine ⟨h4, fun c hc => ?_⟩
        rcases h5 c hc with h6 | h6
        · simp at h6
        · exact Or.inr ⟨List.mem_cons_of_mem _ h6.1, h6.2⟩
    · obtain ⟨h3, h4⟩ := ih (cur ++ [a]) hw
      refine ⟨h3, fun c hc => ?_⟩
      rcases h4 c hc with h5 | h5
      · rcases List.mem_append.mp h5 with h6 | h6
        · exact Or.inl h6
        · simp at h6; subst h6
          exact Or.inr ⟨by simp, by simpa using h1⟩
      · exact Or.inr ⟨List.mem_cons_of_mem _ h5.1, h5.2⟩

/-- Every word returned by `strings.FieldsFunc` is non-empty and made of
codepoints of the string that are not delimiters. -/
theorem FieldsFunc_mem (f : Nat → Bool) (s w : Str) (hw : w ∈ strings.FieldsFunc s f) :
    w ≠ [] ∧ ∀ c ∈ w, c ∈ s ∧ f c = false := by
  obtain ⟨h1, h2⟩ := fieldsLoop_mem f s [] w hw
  refine ⟨h1, fun c hc => ?_⟩
  rcases h2 c hc with h3 | h3
  · simp at h3
  · exact h3

theorem fieldsLoop_of_all_delim (f : Nat → Bool) (s : Str) (h : ∀ c ∈ s, f c = true) :
    strings.fieldsLoop f s [] = [] := by
  induction s with
  | nil => rfl
  | cons a s ih =>
    have h1 : f a = true := h a (by simp)
    have h2 := ih (fun c hc => h c (by simp [hc]))
    simp [strings.fieldsLoop, h1, h2]

/-- The words of a letter name are non-empty runs of ASCII letters. -/
theorem LetterName.words {name : Str} (h : LetterName name) :
    ∀ w ∈ strings.FieldsFunc name isDelimiter, w ≠ [] ∧ ∀ c ∈ w, isASCIILetter c := by
  intro w hw
  obtain ⟨h1, h2⟩ := FieldsFunc_mem _ _ _ hw
  refine ⟨h1, fun c hc => ?_⟩
  obtain ⟨h3, h4⟩ := h2 c hc
  rcases h c h3 with h5 | h5 | h5
  · exact h5
  · subst h5; simp [isDelimiter] at h4
  · subst h5; simp [isDelimiter] at h4

theorem getInitial_of_pos (t : CaseTables) (word : Str) (length : Int) (opts : generatorOptions)
    (hw : word ≠ []) (hl : 0 < length) :
    getInitial t word length opts = some (applyCase t opts (word.take length.toNat)) := by
  have h0 : len word ≠ 0 := fun h => hw ((len_eq_zero_iff word).mp h)
  have hlen := length_le_len word
  have hpos : 0 < word.length := List.length_pos.mpr hw
  unfold getInitial
  simp only [h0, if_false]
  have key : ∀ l2 : Int, 0 < l2 →
      (l2 = length ∨ ((word.length : Int) ≤ l2 ∧ (word.length : Int) ≤ length)) →
      ¬ ((if (word.length : Int) < l2 then (word.length : Int) else l2) < 0) ∧
      word.take (if (word.length : Int) < l2 then (word.length : Int) else l2).toNat
        = word.take length.toNat := by
    intro l2 h1 h2
    split_ifs with h3
    · refine ⟨by omega, ?_⟩
      rw [Int.toNat_ofNat, List.take_of_length_le (le_refl _), List.take_of_length_le]
      rcases h2 with h2 | h2 <;> omega
    · refine ⟨by omega, ?_⟩
      rcases h2 with h2 | h2
      · rw [h2]
      · rw [List.take_of_length_le (by omega), List.take_of_length_le (by omega)]
  obtain ⟨k1, k2⟩ := key (if (len word : Int) < length then (len word : Int) else length)
    (by split_ifs <;> omega)
    (by
      by_cases h5 : (len word : Int) < length
      · rw [if_pos h5]; right; omega
      · rw [if_neg h5]; left; rfl)
  simp only [k1, if_false, k2]
  have hne : word.take length.toNat ≠ [] := by
    intro h
    rcases List.take_eq_nil_iff.mp h with h6 | h6
    · omega
    · exact hw h6
  unfold applyCase
  split_ifs <;> try rfl
  cases hq : word.take length.toNat with
  | nil => exact absurd hq hne
  | cons r ir => rfl

theorem getInitial_of_neg (t : CaseTables) (word : Str) (length : Int) (opts : generatorOptions)
    (hw : word ≠ []) (hl : length < 0) : getInitial t word length opts = none := by
  have h0 : len word ≠ 0 := fun h => hw ((len_eq_zero_iff word).mp h)
  unfold getInitial
  simp only [h0, if_false]
  have h1 : ¬ ((len word : Int) < length) := by omega
  have h2 : ¬ ((word.length : Int) < length) := by omega
  simp [h1, h2, hl]

/-! ## One iteration of the loop -/

theorem applyCase_length (t : CaseTables) (opts : generatorOptions) (x : Str) :
    (applyCase t opts x).length = x.length := by
  unfold applyCase
  split_ifs
  · rfl
  · simp [strings.ToLower]
  · simp [strings.ToUpper]
  · cases x <;> rfl
  · rfl

/-- The piece that word `w` contributes when `length` codepoints are asked for. -/
theorem piece_length_pos (t : CaseTables) (opts : generatorOptions) (w : Str) (length : Int)
    (hw : w ≠ []) (hl : 0 < length) : 0 < (applyCase t opts (w.take length.toNat)).length := by
  rw [applyCase_length, List.length_take]
  have := List.length_pos.mpr hw
  omega

/-- An iteration of the loop on a non-empty word with a positive length: the
word contributes the cased prefix, the budget decreases by its byte length and
the separator follows when budget is left. -/
theorem wordLoop_step (t : CaseTables) (n i : Nat) (w : Str) (rest : List Str)
    (opts : generatorOptions) (initials : Str) (hw : w ≠ [])
    (hne : opts.remainingLength ≠ 0) (hl : 0 < initialLength n i opts.remainingLength) :
    wordLoop t n i (w :: rest) opts initials =
      wordLoop t n (i + 1) rest
        { opts with remainingLength := opts.remainingLength -
            (len (applyCase t opts (w.take (initialLength n i opts.remainingLength).toNat)) : Int) }
        (if opts.remainingLength -
            (len (applyCase t opts (w.take (initialLength n i opts.remainingLength).toNat)) : Int) > 0
         then initials ++ applyCase t opts (w.take (initialLength n i opts.remainingLength).toNat)
            ++ opts.Separator
         else initials ++ applyCase t opts (w.take (initialLength n i opts.remainingLength).toNat)) := by
  have hp := piece_length_pos t opts w _ hw hl
  have hlen := length_le_len (applyCase t opts (w.take (initialLength n i opts.remainingLength).toNat))
  have hpos : len (initials ++
      applyCase t opts (w.take (initialLength n i opts.remainingLength).toNat)) > 0 := by
    rw [len_append]; omega
  rw [wordLoop, if_neg hne, getInitial_of_pos t w _ opts hw hl]
  simp only [hpos, true_and]

/-- An iteration of the loop on a non-empty word with a negative length panics. -/
theorem wordLoop_neg (t : CaseTables) (n i : Nat) (w : Str) (rest : List Str)
    (opts : generatorOptions) (initials : Str) (hw : w ≠ [])
    (hne : opts.remainingLength ≠ 0) (hl : initialLength n i opts.remainingLength < 0) :
    wordLoop t n i (w :: rest) opts initials = none := by
  rw [wordLoop, if_neg hne, getInitial_of_neg t w _ opts hw hl]

/-! ## The loop on names of ASCII letters -/

theorem intercalate_singleton (s a : Str) : s.intercalate [a] = a := by
  simp [List.intercalate, List.intersperse]

theorem intercalate_cons_cons (s a b : Str) (l : List Str) :
    s.intercalate (a :: b :: l) = a ++ s ++ s.intercalate (b :: l) := by
  simp [List.intercalate, List.intersperse]

theorem ToUpper_of_letters (t : CaseTables) (w : Str) (h : ∀ c ∈ w, isASCIILetter c) :
    strings.ToUpper t w = w.map upperASCII := by
  unfold strings.ToUpper
  apply List.map_congr_left
  intro c hc
  have := h c hc
  unfold isASCIILetter at this
  unfold unicode.ToUpper upperASCII
  have h1 : c ≤ 0x7F := by omega
  simp [h1]

theorem upperASCII_ascii (w : Str) (h : ∀ c ∈ w, isASCIILetter c) :
    ∀ c ∈ w.map upperASCII, c ≤ 0x7F := by
  intro c hc
  obtain ⟨d, hd, rfl⟩ := List.mem_map.mp hc
  have := h d hd
  unfold isASCIILetter at this
  unfold upperASCII
  split_ifs <;> omega

theorem initialLength_of_le (n i : Nat) (r : Int) (h0 : 0 < r) (h1 : r ≤ (n : Int) - (i : Int)) :
    initialLength n i r = 1 := by
  unfold initialLength
  simp only
  split_ifs <;> omega

theorem wordLoop_first_letters (t : CaseTables) (n : Nat) (s : Str) :
    ∀ (ws : List Str) (i r : Nat) (opts : generatorOptions) (initials : Str),
      (∀ w ∈ ws, w ≠ [] ∧ ∀ c ∈ w, isASCIILetter c) →
      i + ws.length = n → r ≤ ws.length →
      opts.remainingLength = (r : Int) → opts.Separator = s →
      opts.Sensitive = false → opts.Lowercase = false → opts.Uppercase = true →
      wordLoop t n i ws opts initials =
        some (initials ++ s.intercalate ((ws.take r).map (fun w => (w.take 1).map upperASCII))) := by
  intro ws
  induction ws with
  | nil =>
    intro i r opts initials _ _ hr _ _ _ _ _
    simp [wordLoop, List.intercalate]
  | cons w rest ih =>
    intro i r opts initials hws hi hr hrem hsep hS hL hU
    cases r with
    | zero => simp [wordLoop, hrem, List.intercalate]
    | succ r =>
      obtain ⟨hw, hwl⟩ := hws w (by simp)
      simp only [List.length_cons] at hi hr
      have hne : opts.remainingLength ≠ 0 := by rw [hrem]; omega
      have hlen : initialLength n i opts.remainingLength = 1 :=
        initialLength_of_le n i _ (by rw [hrem]; omega) (by rw [hrem]; omega)
      have hcase : applyCase t opts (w.take 1) = (w.take 1).map upperASCII := by
        unfold applyCase
        simp only [hS, hL, hU]
        exact ToUpper_of_letters t _ (fun c hc => hwl c (List.mem_of_mem_take hc))
      have hlen1 : len ((w.take 1).map upperASCII) = 1 := by
        rw [len_of_ascii _ (upperASCII_ascii _ (fun c hc => hwl c (List.mem_of_mem_take hc)))]
        cases w with
        | nil => exact absurd rfl hw
        | cons c w => simp
      have h1 : (1 : Int).toNat = 1 := rfl
      rw [wordLoop_step t n i w rest opts initials hw hne (by rw [hlen]; omega), hlen, h1, hcase]
      simp only [hlen1, hrem, hsep]
      have hws2 : ∀ w2 ∈ rest, w2 ≠ [] ∧ ∀ c ∈ w2, isASCIILetter c :=
        fun w2 h2 => hws w2 (by simp [h2])
      rcases Nat.eq_zero_or_pos r with hr0 | hr0
      · subst hr0
        refine (ih (i + 1) 0 _ _ ?_ ?_ ?_ ?_ ?_ ?_ ?_ ?_).trans ?_
        · exact hws2
        · omega
        · omega
        · simp
        · rfl
        · exact hS
        · exact hL
        · exact hU
        · simp [intercalate_singleton, List.intercalate]
      · have hc : ((r + 1 : Nat) : Int) - ((1 : Nat) : Int) > 0 := by omega
        rw [if_pos hc]
        refine (ih (i + 1) r _ _ ?_ ?_ ?_ ?_ ?_ ?_ ?_ ?_).trans ?_
        · exact hws2
        · omega
        · omega
        · simp
        · rfl
        · exact hS
        · exact hL
        · exact hU
        · cases rest with
          | nil => simp at hr; omega
          | cons w2 rest2 =>
            cases r with
            | zero => omega
            | succ r2 =>
              simp only [List.take_succ_cons, List.map_cons, intercalate_cons_cons,
                List.append_assoc]

theorem applyCase_upper_letters (t : CaseTables) (opts : generatorOptions) (x : Str)
    (hS : opts.Sensitive = false) (hL : opts.Lowercase = false) (hU : opts.Uppercase = true)
    (hx : ∀ c ∈ x, isASCIILetter c) : applyCase t opts x = x.map upperASCII := by
  unfold applyCase
  simp only [hS, hL, hU]
  exact ToUpper_of_letters t x hx

theorem len_upper_letters (x : Str) (hx : ∀ c ∈ x, isASCIILetter c) :
    len (x.map upperASCII) = x.length := by
  rw [len_of_ascii _ (upperASCII_ascii x hx), List.length_map]

theorem initialLength_last (n i : Nat) (r : Int) (h : i + 1 = n) : initialLength n i r = r := by
  unfold initialLength
  simp only
  rw [if_pos (by omega)]

theorem initialLength_first (n : Nat) (r : Int) (h : 1 < n) : initialLength n 0 r = 1 := by
  unfold initialLength
  simp [h]
  intro h1
  omega

theorem wordLoop_two_words (t : CaseTables) (w1 w2 : Str) (opts : generatorOptions) (r : Nat)
    (hw1 : w1 ≠ [] ∧ ∀ c ∈ w1, isASCIILetter c) (hw2 : w2 ≠ [] ∧ ∀ c ∈ w2, isASCIILetter c)
    (hrem : opts.remainingLength = ((r + 1 : Nat) : Int)) (hsep : opts.Separator = [])
    (hS : opts.Sensitive = false) (hL : opts.Lowercase = false) (hU : opts.Uppercase = true) :
    wordLoop t 2 0 [w1, w2] opts [] =
      some ((w1.take 1).map upperASCII ++ (w2.take r).map upperASCII) := by
  have hne : opts.remainingLength ≠ 0 := by rw [hrem]; omega
  have hl1 : initialLength 2 0 opts.remainingLength = 1 := initialLength_first 2 _ (by omega)
  have h1 : (1 : Int).toNat = 1 := rfl
  have hc1 : applyCase t opts (w1.take 1) = (w1.take 1).map upperASCII :=
    applyCase_upper_letters t opts _ hS hL hU (fun c hc => hw1.2 c (List.mem_of_mem_take hc))
  have hlen1 : len ((w1.take 1).map upperASCII) = 1 := by
    rw [len_upper_letters _ (fun c hc => hw1.2 c (List.mem_of_mem_take hc))]
    cases w1 with
    | nil => exact absurd rfl hw1.1
    | cons c w => simp
  rw [wordLoop_step t 2 0 w1 [w2] opts [] hw1.1 hne (by rw [hl1]; omega), hl1, h1, hc1, hlen1,
    hsep, hrem]
  simp only [List.nil_append, List.append_nil, ite_self]
  rcases Nat.eq_zero_or_pos r with hr | hr
  · subst hr
    simp [wordLoop]
  · have hl2 : initialLength 2 (0 + 1) (((r + 1 : Nat) : Int) - ((1 : Nat) : Int))
        = ((r + 1 : Nat) : Int) - ((1 : Nat) : Int) := initialLength_last 2 _ _ (by omega)
    have h2 : (((r + 1 : Nat) : Int) - ((1 : Nat) : Int)).toNat = r := by omega
    rw [wordLoop_step t 2 (0 + 1) w2 [] _ _ hw2.1 (by show _ - _ ≠ (0 : Int); omega)
      (by show 0 < initialLength 2 (0 + 1) _; rw [hl2]; omega)]
    simp only [hl2, h2, List.append_nil, ite_self, wordLoop]
    refine congrArg some (congrArg _ ?_)
    exact applyCase_upper_letters t _ _ hS hL hU
      (fun c hc => hw2.2 c (List.mem_of_mem_take hc))

/-! ## The loop with an empty separator -/

theorem initialLength_bounds (n i : Nat) (r : Int) (hr : 0 < r) (hi : i < n) :
    0 < initialLength n i r ∧ initialLength n i r ≤ r := by
  unfold initialLength
  simp only
  split_ifs with h1 h2 h3 h4
  · omega
  · omega
  · omega
  · have hd : (0 : Int) < (n : Int) - (i : Int) := by omega
    constructor
    · have : (1 : Int) ≤ r / ((n : Int) - (i : Int)) :=
        Int.le_ediv_of_mul_le hd (by omega)
      omega
    · exact Int.ediv_le_self _ (by omega)
  · omega

theorem initialLength_of_neg (n i : Nat) (r : Int) (hr : r < 0) (hi : i + 1 < n) :
    initialLength n i r = 1 := by
  unfold initialLength
  simp only
  split_ifs <;> omega

/-- With an empty separator, an iteration on a non-empty word with a positive
length appends the cased prefix and nothing else. -/
theorem wordLoop_step_nosep (t : CaseTables) (n i : Nat) (w : Str) (rest : List Str)
    (opts : generatorOptions) (initials : Str) (hw : w ≠ []) (hsep : opts.Separator = [])
    (hne : opts.remainingLength ≠ 0) (hl : 0 < initialLength n i opts.remainingLength) :
    wordLoop t n i (w :: rest) opts initials =
      wordLoop t n (i + 1) rest
        { opts with remainingLength := opts.remainingLength -
            (len (applyCase t opts (w.take (initialLength n i opts.remainingLength).toNat)) : Int) }
        (initials ++ applyCase t opts (w.take (initialLength n i opts.remainingLength).toNat)) := by
  rw [wordLoop_step t n i w rest opts initials hw hne hl, hsep]
  simp only [List.append_nil, ite_self]

/-- Once the remaining length is negative the loop panics at the last word. -/
theorem wordLoop_of_neg (t : CaseTables) (n : Nat) :
    ∀ (ws : List Str) (i : Nat) (opts : generatorOptions) (initials : Str),
      (∀ w ∈ ws, w ≠ []) → ws ≠ [] → i + ws.length = n → opts.remainingLength < 0 →
      wordLoop t n i ws opts initials = none := by
  intro ws
  induction ws with
  | nil => intro i opts initials _ h; exact absurd rfl h
  | cons w rest ih =>
    intro i opts initials hws _ hi hrem
    have hw : w ≠ [] := hws w (by simp)
    have hne : opts.remainingLength ≠ 0 := by omega
    simp only [List.length_cons] at hi
    cases rest with
    | nil =>
      simp only [List.length_nil] at hi
      exact wordLoop_neg t n i w [] opts initials hw hne
        (by rw [initialLength_last n i _ (by omega)]; exact hrem)
    | cons w2 rest2 =>
      simp only [List.length_cons] at hi
      have hl : initialLength n i opts.remainingLength = 1 :=
        initialLength_of_neg n i _ hrem (by omega)
      rw [wordLoop_step t n i w (w2 :: rest2) opts initials hw hne (by rw [hl]; omega)]
      refine ih (i + 1) _ _ ?_ ?_ ?_ ?_
      · exact fun w3 h3 => hws w3 (by simp [h3])
      · simp
      · simp only [List.length_cons]; omega
      · show opts.remainingLength - _ < 0
        omega

/-- With an empty separator, a returned result exceeds the initials built so
far by at most the remaining length. -/
theorem wordLoop_length_le (t : CaseTables) (n : Nat) :
    ∀ (ws : List Str) (i : Nat) (opts : generatorOptions) (initials r : Str),
      (∀ w ∈ ws, w ≠ []) → i + ws.length = n → opts.Separator = [] →
      wordLoop t n i ws opts initials = some r →
      (r.length : Int) ≤ (initials.length : Int) + max opts.remainingLength 0 := by
  intro ws
  induction ws with
  | nil =>
    intro i opts initials r _ _ _ h
    simp only [wordLoop, Option.some.injEq] at h
    subst h
    omega
  | cons w rest ih =>
    intro i opts initials r hws hi hsep h
    have hw : w ≠ [] := hws w (by simp)
    have hws2 : ∀ w2 ∈ rest, w2 ≠ [] := fun w2 h2 => hws w2 (by simp [h2])
    simp only [List.length_cons] at hi
    by_cases h0 : opts.remainingLength = 0
    · rw [wordLoop, if_pos h0] at h
      simp only [Option.some.injEq] at h
      subst h
      omega
    · rcases lt_or_gt_of_ne h0 with hneg | hpos
      · rw [wordLoop_of_neg t n (w :: rest) i opts initials hws (by simp)
          (by simp only [List.length_cons]; omega) hneg] at h
        exact absurd h (by simp)
      · obtain ⟨hl0, hl1⟩ := initialLength_bounds n i opts.remainingLength hpos (by omega)
        rw [wordLoop_step_nosep t n i w rest opts initials hw hsep h0 hl0] at h
        have hplen : (applyCase t opts
            (w.take (initialLength n i opts.remainingLength).toNat)).length
              ≤ (initialLength n i opts.remainingLength).toNat := by
          rw [applyCase_length, List.length_take]; omega
        have hblen := length_le_len (applyCase t opts
            (w.take (initialLength n i opts.remainingLength).toNat))
        by_cases hrem2 : opts.remainingLength - (len (applyCase t opts
            (w.take (initialLength n i opts.remainingLength).toNat)) : Int) < 0
        · cases rest with
          | nil =>
            simp only [wordLoop, Option.some.injEq] at h
            subst h
            rw [List.length_append]
            omega
          | cons w2 rest2 =>
            rw [wordLoop_of_neg t n (w2 :: rest2) (i + 1) _ _ hws2 (by simp)
              (by simp only [List.length_cons] at hi ⊢; omega) hrem2] at h
            exact absurd h (by simp)
        · have := ih (i + 1) _ _ r hws2 (by omega) (by exact hsep) h
          simp only [List.length_append] at this
          omega

/-! ## Unfolding `GetInitials` on plain names -/

/-- On a name of ASCII codepoints without a slash, with options that leave
the name and the special-character flag alone, `GetInitials` is the loop on the
words of the name. -/
theorem GetInitials_of_plain (t : CaseTables) (m : List (Str × List Str)) (name : Str)
    (options : List OptionFunc) (hm : FriendlyNonASCII m)
    (hn : ∀ c ∈ name, c ≤ 0x7F ∧ c ≠ 0x2F)
    (hN : (options.foldl (fun opts option => option opts) (defaultOptions name)).Name = name)
    (hS : (options.foldl (fun opts option => option opts)
      (defaultOptions name)).SpecialChars = false) :
    GetInitials t m name options =
      if (strings.FieldsFunc name isDelimiter).length = 0 then some []
      else wordLoop t (strings.FieldsFunc name isDelimiter).length 0
        (strings.FieldsFunc name isDelimiter)
        (if (options.foldl (fun opts option => option opts) (defaultOptions name)).WordLength
         then { options.foldl (fun opts option => option opts) (defaultOptions name) with
                Name := name
                Length := ((strings.FieldsFunc name isDelimiter).length : Int)
                remainingLength := ((strings.FieldsFunc name isDelimiter).length : Int) }
         else { options.foldl (fun opts option => option opts) (defaultOptions name) with
                Name := name }) [] := by
  unfold GetInitials
  simp only [hS, hN, Bool.not_false, if_true, filters_of_plain m name hm hn]

/-- With options that leave the name and the special-character flag alone,
`GetInitials` is the loop on the words of the filtered name. -/
theorem GetInitials_unfold (t : CaseTables) (m : List (Str × List Str)) (name : Str)
    (options : List OptionFunc) (hN : (applyOptions name options).Name = name)
    (hS : (applyOptions name options).SpecialChars = false) :
    GetInitials t m name options =
      if (wordsOf m name).length = 0 then some []
      else wordLoop t (wordsOf m name).length 0 (wordsOf m name)
        (if (applyOptions name options).WordLength
         then { applyOptions name options with
                Name := filterName m name
                Length := ((wordsOf m name).length : Int)
                remainingLength := ((wordsOf m name).length : Int) }
         else { applyOptions name options with Name := filterName m name }) [] := by
  unfold applyOptions at hN hS
  unfold GetInitials wordsOf filterName applyOptions
  simp only [hS, hN, Bool.not_false, if_true]

theorem wordsOf_ne_nil (m : List (Str × List Str)) (name : Str) :
    ∀ w ∈ wordsOf m name, w ≠ [] :=
  fun w hw => (FieldsFunc_mem _ _ w hw).1

theorem foldl_public (options : List OptionFunc) (h : ∀ o ∈ options, PublicOption o) :
    ∀ o0 : generatorOptions,
      (options.foldl (fun opts option => option opts) o0).Name = o0.Name ∧
      (options.foldl (fun opts option => option opts) o0).SpecialChars = o0.SpecialChars := by
  induction options with
  | nil => intro o0; exact ⟨rfl, rfl⟩
  | cons o os ih =>
    intro o0
    have h1 := ih (fun o2 h2 => h o2 (by simp [h2])) (o o0)
    simp only [List.foldl_cons]
    have h3 : (o o0).Name = o0.Name ∧ (o o0).SpecialChars = o0.SpecialChars := by
      cases h o (by simp) <;> exact ⟨rfl, rfl⟩
    exact ⟨h1.1.trans h3.1, h1.2.trans h3.2⟩

/-- The public options never change the name nor allow special characters. -/
theorem applyOptions_public (name : Str) (options : List OptionFunc)
    (h : ∀ o ∈ options, PublicOption o) :
    (applyOptions name options).Name = name ∧
    (applyOptions name options).SpecialChars = false :=
  foldl_public options h (defaultOptions name)

/-! ## The loop reads the separator, the case flags and the remaining length only -/

theorem getInitial_congr (t : CaseTables) (w : Str) (l : Int) (o1 o2 : generatorOptions)
    (h : SameStyle o1 o2) : getInitial t w l o1 = getInitial t w l o2 := by
  obtain ⟨_, h2, h3, h4, h5⟩ := h
  unfold getInitial
  simp only [h2, h3, h4, h5]

theorem wordLoop_congr (t : CaseTables) (n : Nat) :
    ∀ (ws : List Str) (i : Nat) (o1 o2 : generatorOptions) (initials : Str),
      SameStyle o1 o2 → o1.remainingLength = o2.remainingLength →
      wordLoop t n i ws o1 initials = wordLoop t n i ws o2 initials := by
  intro ws
  induction ws with
  | nil => intro i o1 o2 initials _ _; rfl
  | cons w rest ih =>
    intro i o1 o2 initials hs hr
    rw [wordLoop, wordLoop, hr, getInitial_congr t w _ o1 o2 hs]
    by_cases h0 : o2.remainingLength = 0
    · simp only [h0, if_true]
    · simp only [h0, if_false]
      cases getInitial t w (initialLength n i o2.remainingLength) o2 with
      | none => rfl
      | some initial =>
        simp only [hs.1]
        exact ih (i + 1) _ _ _ ⟨rfl, hs.2.1, hs.2.2.1, hs.2.2.2.1, hs.2.2.2.2⟩ rfl

theorem foldl_other_style (options : List OptionFunc) (h : ∀ o ∈ options, OtherOption o) :
    ∀ o1 o2 : generatorOptions, SameStyle o1 o2 →
      SameStyle (options.foldl (fun opts option => option opts) o1)
        (options.foldl (fun opts option => option opts) o2) := by
  induction options with
  | nil => intro o1 o2 hs; exact hs
  | cons o os ih =>
    intro o1 o2 hs
    simp only [List.foldl_cons]
    apply ih (fun o3 h3 => h o3 (by simp [h3]))
    obtain ⟨h1, h2, h3, h4, h5⟩ := hs
    cases h o (by simp) <;> exact ⟨by first | rfl | exact h1, by first | rfl | exact h2,
      by first | rfl | exact h3, by first | rfl | exact h4, by first | rfl | exact h5⟩

theorem foldl_other_keep (options : List OptionFunc) (h : ∀ o ∈ options, OtherOption o) :
    ∀ o0 : generatorOptions,
      (options.foldl (fun opts option => option opts) o0).Name = o0.Name ∧
      (options.foldl (fun opts option => option opts) o0).SpecialChars = o0.SpecialChars ∧
      (options.foldl (fun opts option => option opts) o0).WordLength = o0.WordLength ∧
      (options.foldl (fun opts option => option opts) o0).remainingLength
        = o0.remainingLength := by
  induction options with
  | nil => intro o0; exact ⟨rfl, rfl, rfl, rfl⟩
  | cons o os ih =>
    intro o0
    obtain ⟨h1, h2, h3, h4⟩ := ih (fun o2 h2 => h o2 (by simp [h2])) (o o0)
    simp only [List.foldl_cons]
    have h5 : (o o0).Name = o0.Name ∧ (o o0).SpecialChars = o0.SpecialChars ∧
        (o o0).WordLength = o0.WordLength ∧ (o o0).remainingLength = o0.remainingLength := by
      cases h o (by simp) <;> exact ⟨rfl, rfl, rfl, rfl⟩
    exact ⟨h1.trans h5.1, h2.trans h5.2.1, h3.trans h5.2.2.1, h4.trans h5.2.2.2⟩

/-- The result of `GetInitials` when the final configuration keeps the name and
forbids special characters, stated on the remaining length that enters the
loop. -/
theorem GetInitials_of_config (t : CaseTables) (m : List (Str × List Str)) (name : Str)
    (options : List OptionFunc) (o : generatorOptions) (rem : Int)
    (hN : (applyOptions name options).Name = name)
    (hS : (applyOptions name options).SpecialChars = false)
    (hstyle : SameStyle (applyOptions name options) o)
    (hrem : (if (applyOptions name options).WordLength then ((wordsOf m name).length : Int)
      else (applyOptions name options).remainingLength) = rem)
    (ho : o.remainingLength = rem) :
    GetInitials t m name options =
      if (wordsOf m name).length = 0 then some []
      else wordLoop t (wordsOf m name).length 0 (wordsOf m name) o [] := by
  rw [GetInitials_unfold t m name options hN hS]
  by_cases h0 : (wordsOf m name).length = 0
  · rw [if_pos h0, if_pos h0]
  · rw [if_neg h0, if_neg h0]
    apply wordLoop_congr
    · by_cases hw : (applyOptions name options).WordLength = true
      · rw [if_pos hw]; exact hstyle
      · rw [if_neg hw]; exact hstyle
    · by_cases hw : (applyOptions name options).WordLength = true
      · rw [if_pos hw] at hrem ⊢
        rw [ho, ← hrem]
      · rw [if_neg hw] at hrem ⊢
        rw [ho, ← hrem]

/-- `GetInitials` on an option list made of separator and case options around a
middle part `g` that only touches the length fields. -/
theorem GetInitials_around (t : CaseTables) (m : List (Str × List Str)) (name : Str)
    (pre post options : List OptionFunc) (g : OptionFunc) (rem : Int)
    (hpre : ∀ o ∈ pre, OtherOption o) (hpost : ∀ o ∈ post, OtherOption o)
    (heq : applyOptions name options = post.foldl (fun opts option => option opts)
      (g (pre.foldl (fun opts option => option opts) (defaultOptions name))))
    (hg : ∀ o, SameStyle (g o) o ∧ (g o).Name = o.Name ∧ (g o).SpecialChars = o.SpecialChars)
    (hrem : ∀ o, o.WordLength = false →
      (if (g o).WordLength then ((wordsOf m name).length : Int) else (g o).remainingLength)
        = rem) :
    GetInitials t m name options =
      if (wordsOf m name).length = 0 then some []
      else wordLoop t (wordsOf m name).length 0 (wordsOf m name)
        { post.foldl (fun opts option => option opts)
            (pre.foldl (fun opts option => option opts) (defaultOptions name)) with
          remainingLength := rem } [] := by
  obtain ⟨p1, p2, p3, _⟩ := foldl_other_keep pre hpre (defaultOptions name)
  obtain ⟨q1, q2, q3, q4⟩ := foldl_other_keep post hpost
    (g (pre.foldl (fun opts option => option opts) (defaultOptions name)))
  obtain ⟨g1, g2, g3⟩ := hg (pre.foldl (fun opts option => option opts) (defaultOptions name))
  apply GetInitials_of_config t m name options _ rem
  · rw [heq, q1, g2, p1]; rfl
  · rw [heq, q2, g3, p2]; rfl
  · rw [heq]
    obtain ⟨s1, s2, s3, s4, s5⟩ := foldl_other_style post hpost _ _ g1
    exact ⟨s1, s2, s3, s4, s5⟩
  · rw [heq, q3, q4]
    exact hrem _ (by rw [p3]; rfl)
  · rfl

/-! ## Camel case against sensitive mode on ASCII letters -/

theorem applyCase_sensitive (t : CaseTables) (opts : generatorOptions) (x : Str)
    (hS : opts.Sensitive = true) : applyCase t opts x = x := by
  unfold applyCase
  simp only [hS, if_true]

theorem applyCase_camel_letters (t : CaseTables) (opts : generatorOptions) (x : Str)
    (hS : opts.Sensitive = false) (hL : opts.Lowercase = false) (hU : opts.Uppercase = false)
    (hC : opts.CamelCase = true) (hx : ∀ c ∈ x, isASCIILetter c) :
    applyCase t opts x = capitalizeFirst x := by
  unfold applyCase
  simp only [hS, hL, hU, hC, Bool.false_eq_true, if_false, if_true]
  cases x with
  | nil => rfl
  | cons c rest =>
    have := hx c (by simp)
    unfold isASCIILetter at this
    show unicode.ToUpper t c :: rest = upperASCII c :: rest
    unfold unicode.ToUpper upperASCII
    have h1 : c ≤ 0x7F := by omega
    simp [h1]

theorem letters_ascii (x : Str) (hx : ∀ c ∈ x, isASCIILetter c) : ∀ c ∈ x, c ≤ 0x7F := by
  intro c hc
  have := hx c hc
  unfold isASCIILetter at this
  omega

theorem capitalizeFirst_ascii (x : Str) (hx : ∀ c ∈ x, isASCIILetter c) :
    ∀ c ∈ capitalizeFirst x, c ≤ 0x7F := by
  cases x with
  | nil => intro c hc; simp [capitalizeFirst] at hc
  | cons d rest =>
    intro c hc
    simp only [capitalizeFirst, List.mem_cons] at hc
    rcases hc with rfl | hc
    · have := hx d (by simp)
      unfold isASCIILetter at this
      unfold upperASCII
      split_ifs <;> omega
    · exact letters_ascii _ hx c (by simp [hc])

theorem capitalizeFirst_length (x : Str) : (capitalizeFirst x).length = x.length := by
  cases x <;> rfl

theorem initialLength_eq_specLength (n i r : Nat) (hi : i < n) :
    initialLength n i (r : Int) = ((specLength n i r : Nat) : Int) := by
  unfold initialLength specLength
  simp only
  have hd : (n : Int) - (i : Int) = ((n - i : Nat) : Int) := by omega
  by_cases h1 : i + 1 = n
  · rw [if_pos (by omega), if_pos h1]
  · rw [if_neg (by omega), if_neg h1]
    by_cases h2 : i = 0 ∧ n > 1
    · rw [if_pos h2, if_pos h2]; rfl
    · rw [if_neg h2, if_neg h2]
      by_cases h3 : r < n - i
      · rw [if_pos (by omega), if_pos h3]; rfl
      · rw [if_neg (by omega), if_neg h3]
        by_cases h4 : r > n - i
        · rw [if_pos (by omega), if_pos h4, hd]
          exact (Int.natCast_ediv r (n - i)).symm
        · rw [if_neg (by omega), if_neg h4]; rfl

/-- The loop with the empty separator on words of ASCII letters, for a case
mode that acts on every extracted prefix as `f` and keeps its byte length:
the result is the concatenation of the specified contributions under `f`. -/
theorem wordLoop_pieces (t : CaseTables) (n : Nat) (f : Str → Str) (opts0 : generatorOptions)
    (hf : ∀ o : generatorOptions, SameStyle o opts0 → ∀ x : Str,
      (∀ c ∈ x, isASCIILetter c) → applyCase t o x = f x)
    (hlen : ∀ x : Str, (∀ c ∈ x, isASCIILetter c) → len (f x) = x.length) :
    ∀ (ws : List Str) (i r : Nat) (opts : generatorOptions) (initials : Str),
      (∀ w ∈ ws, w ≠ [] ∧ ∀ c ∈ w, isASCIILetter c) → i + ws.length = n →
      SameStyle opts opts0 → opts.Separator = [] → opts.remainingLength = (r : Int) →
      wordLoop t n i ws opts initials =
        some (initials ++ ((specPieces n i r ws).map f).flatten) := by
  intro ws
  induction ws with
  | nil =>
    intro i r opts initials _ _ _ _ _
    simp [wordLoop, specPieces]
  | cons w rest ih =>
    intro i r opts initials hws hi hstyle hsep hrem
    obtain ⟨hw, hwl⟩ := hws w (by simp)
    simp only [List.length_cons] at hi
    rcases Nat.eq_zero_or_pos r with h0 | hpos
    · subst h0
      rw [wordLoop, if_pos (by rw [hrem]; rfl)]
      simp [specPieces]
    · obtain ⟨hl0, hl1⟩ := initialLength_bounds n i (r : Int) (by omega) (by omega)
      have hk := initialLength_eq_specLength n i r (by omega)
      have hpl : ∀ c ∈ w.take (specLength n i r), isASCIILetter c :=
        fun c hc => hwl c (List.mem_of_mem_take hc)
      have hkr : (w.take (specLength n i r)).length ≤ r := by
        rw [List.length_take]; omega
      rw [wordLoop_step_nosep t n i w rest opts initials hw hsep (by rw [hrem]; omega)
        (by rw [hrem]; exact hl0), hrem, hk, Int.toNat_ofNat, hf opts hstyle _ hpl,
        hlen _ hpl]
      have hne : r ≠ 0 := by omega
      rw [specPieces, if_neg hne]
      refine (ih (i + 1) (r - (w.take (specLength n i r)).length) _ _
        (fun w2 h2 => hws w2 (by simp [h2])) (by omega) ?_ ?_ ?_).trans ?_
      · exact ⟨hstyle.1, hstyle.2.1, hstyle.2.2.1, hstyle.2.2.2.1, hstyle.2.2.2.2⟩
      · exact hsep
      · show (r : Int) - _ = _
        omega
      · simp

/-! ## Claims -/

/-- C1: for a name made of words of ASCII letters separated by spaces and/or
hyphens, every separator `s` and every target length `L` with `1 ≤ L ≤ N`
(`N` the number of words), `GetInitials` with `WithLength(L)`,
`WithSeparator(s)` and the default uppercase mode returns the uppercased first
characters of the first `L` words, in word order, joined by `s` with no leading
or trailing `s`; and the default call on a name of at least two words returns
the two uppercased first letters of the first two words. -/
theorem C1_first_letters_joined (t : CaseTables) (m : List (Str × List Str)) (name : Str)
    (hm : FriendlyNonASCII m) (hname : LetterName name) :
    (∀ (s : Str) (L : Nat), 1 ≤ L → L ≤ (strings.FieldsFunc name isDelimiter).length →
      GetInitials t m name [WithLength (L : Int), WithSeparator s] =
        some (s.intercalate (((strings.FieldsFunc name isDelimiter).take L).map
          (fun w => (w.take 1).map upperASCII)))) ∧
    (∀ (w1 w2 : Str) (rest : List Str), strings.FieldsFunc name isDelimiter = w1 :: w2 :: rest →
      GetInitials t m name [] =
        some ((w1.take 1).map upperASCII ++ (w2.take 1).map upperASCII)) := by
  have hwords := hname.words
  constructor
  · intro s L h1 h2
    rw [GetInitials_of_plain t m name [WithLength (L : Int), WithSeparator s] hm hname.plain
      rfl rfl]
    have hlen : (strings.FieldsFunc name isDelimiter).length ≠ 0 := by omega
    rw [if_neg hlen]
    refine (wordLoop_first_letters t _ s _ 0 L _ [] hwords (by omega) h2 ?_ ?_ ?_ ?_ ?_).trans ?_
    · rfl
    · rfl
    · rfl
    · rfl
    · rfl
    · simp
  · intro w1 w2 rest hw
    rw [GetInitials_of_plain t m name [] hm hname.plain rfl rfl]
    have hlen : (strings.FieldsFunc name isDelimiter).length ≠ 0 := by rw [hw]; simp
    rw [if_neg hlen]
    refine (wordLoop_first_letters t _ [] _ 0 2 _ [] hwords (by omega) ?_ ?_ ?_ ?_ ?_ ?_).trans ?_
    · rw [hw]; simp
    · rfl
    · rfl
    · rfl
    · rfl
    · rfl
    · rw [hw]; simp [List.intercalate, List.intersperse]

/-- C1 at "Mary-Kate Olsen", length 3 and separator ".". -/
theorem C1_first_letters_joined_witness :
    GetInitials caseFragment friendlyLatin1 (runes "Mary-Kate Olsen")
      [WithLength 3, WithSeparator (runes ".")] = some (runes "M.K.O") :=
  (C1_first_letters_joined caseFragment friendlyLatin1 (runes "Mary-Kate Olsen")
    (by decide) (by decide)).1 (runes ".") 3 (by decide) (by decide)

/-- C2: for a name of exactly two words `w1`, `w2` of ASCII letters and every
target length `L ≥ 1`, `GetInitials` with `WithLength(L)`, the default uppercase
mode and the empty separator returns the uppercased first character of `w1`
followed by the uppercased first `min(L-1, |w2|)` characters of `w2`. -/
theorem C2_two_words_last_takes_rest (t : CaseTables) (m : List (Str × List Str))
    (name w1 w2 : Str) (L : Nat) (hm : FriendlyNonASCII m) (hname : LetterName name)
    (hwords : strings.FieldsFunc name isDelimiter = [w1, w2]) (hL : 1 ≤ L) :
    GetInitials t m name [WithLength (L : Int)] =
      some ((w1.take 1).map upperASCII ++ (w2.take (min (L - 1) w2.length)).map upperASCII) := by
  have hw := hname.words
  rw [hwords] at hw
  rw [GetInitials_of_plain t m name [WithLength (L : Int)] hm hname.plain rfl rfl, hwords]
  have h0 : ¬ ([w1, w2].length = 0) := by simp
  rw [if_neg h0]
  have hmin : w2.take (min (L - 1) w2.length) = w2.take (L - 1) :=
    List.take_eq_take.mpr (by simp)
  rw [hmin]
  refine wordLoop_two_words t w1 w2 _ (L - 1) (hw w1 (by simp)) (hw w2 (by simp)) ?_ ?_ ?_ ?_ ?_
  · show (L : Int) = ((L - 1 + 1 : Nat) : Int)
    omega
  · rfl
  · rfl
  · rfl
  · rfl

/-- C2 at "John Doe" with length 10. -/
theorem C2_two_words_last_takes_rest_witness :
    GetInitials caseFragment friendlyLatin1 (runes "John Doe") [WithLength 10] =
      some (runes "JDOE") :=
  C2_two_words_last_takes_rest caseFragment friendlyLatin1 (runes "John Doe") (runes "John")
    (runes "Doe") 10 (by decide) (by decide) (by decide) (by decide)

/-- C3: `GetInitials` does panic.  With the default options the name
"😅 John" leaves a negative remaining length after its first word (the budget
is decreased by the four bytes of the emoji), and the last word is then sliced
with that negative length; a negative `WithLength` does the same on a single
word. -/
theorem C3_panics :
    GetInitials caseFragment friendlyLatin1 (runes "😅 John") [] = none ∧
    GetInitials caseFragment friendlyLatin1 (runes "John") [WithLength (-1)] = none := by
  constructor <;> rfl

/-- C4: with separator "." and length 10 the name "John Doe" yields "J.DOE.":
budget is left after the last word, so the separator is appended once more.
The same happens on the one-letter name "J" with the default length. -/
theorem C4_trailing_separator :
    GetInitials caseFragment friendlyLatin1 (runes "John Doe")
      [WithLength 10, WithSeparator (runes ".")] = some (runes "J.DOE.") ∧
    GetInitials caseFragment friendlyLatin1 (runes "J") [WithSeparator (runes ".")]
      = some (runes "J.") := by
  constructor <;> rfl

/-- C7: in word-length mode the five-word name "😅 a b c d" yields "😅a" and
not the five first codepoints "😅abcd": the emoji costs four units of budget. -/
theorem C7_word_length_counts_bytes :
    GetInitials caseFragment friendlyLatin1 (runes "😅 a b c d") [WithWordLength, WithSensitive]
      = some (runes "😅a") ∧
    ((strings.FieldsFunc (replaceFriendlyCharacters friendlyLatin1
        (replaceSpecialCharacters (runes "😅 a b c d"))) isDelimiter).map
      (fun w => w.take 1)).flatten = runes "😅abcd" := by
  constructor <;> rfl

/-- C9: the case mode changes which characters are selected.  On the name
`U+212A x`, ` `, `yz` with length 4 the sensitive result is `U+212A y` while the
lowercase result is `kyz`; on `U+2C65 x`, ` `, `yz` the sensitive result is
`U+2C65 y` while the uppercase result is `U+023A YZ`. -/
theorem C9_case_changes_selection :
    GetInitials caseFragment friendlyLatin1 [0x212A, 0x78, 0x20, 0x79, 0x7A]
      [WithLength 4, WithSensitive] = some [0x212A, 0x79] ∧
    GetInitials caseFragment friendlyLatin1 [0x212A, 0x78, 0x20, 0x79, 0x7A]
      [WithLength 4, WithLowercase] = some [0x6B, 0x79, 0x7A] ∧
    strings.ToLower caseFragment [0x212A, 0x79] = [0x6B, 0x79] ∧
    GetInitials caseFragment friendlyLatin1 [0x2C65, 0x78, 0x20, 0x79, 0x7A]
      [WithLength 4, WithSensitive] = some [0x2C65, 0x79] ∧
    GetInitials caseFragment friendlyLatin1 [0x2C65, 0x78, 0x20, 0x79, 0x7A]
      [WithLength 4, WithUppercase] = some [0x23A, 0x59, 0x5A] ∧
    strings.ToUpper caseFragment [0x2C65, 0x79] = [0x23A, 0x59] := by
  refine ⟨?_, ?_, ?_, ?_, ?_, ?_⟩ <;> rfl

/-- C5: the length is a maximum.  For every name, every target length `L ≥ 0`
and every case mode, with the empty separator, whenever
`GetInitials(name, WithLength(L))` returns, the result has at most `L`
codepoints, and it is empty when `L = 0`. -/
theorem C5_length_is_maximum (t : CaseTables) (m : List (Str × List Str)) (name : Str)
    (L : Nat) (c : OptionFunc) (r : Str) (hc : c ∈ caseOptions)
    (h : GetInitials t m name [WithLength (L : Int), c] = some r) :
    r.length ≤ L ∧ (L = 0 → r = []) := by
  have key : r.length ≤ L := by
    have hN : (applyOptions name [WithLength (L : Int), c]).Name = name := by
      simp only [caseOptions, List.mem_cons, List.mem_singleton, List.not_mem_nil,
        or_false] at hc
      rcases hc with rfl | rfl | rfl | rfl <;> rfl
    have hS : (applyOptions name [WithLength (L : Int), c]).SpecialChars = false := by
      simp only [caseOptions, List.mem_cons, List.mem_singleton, List.not_mem_nil,
        or_false] at hc
      rcases hc with rfl | rfl | rfl | rfl <;> rfl
    have hW : (applyOptions name [WithLength (L : Int), c]).WordLength = false := by
      simp only [caseOptions, List.mem_cons, List.mem_singleton, List.not_mem_nil,
        or_false] at hc
      rcases hc with rfl | rfl | rfl | rfl <;> rfl
    have hR : (applyOptions name [WithLength (L : Int), c]).remainingLength = (L : Int) := by
      simp only [caseOptions, List.mem_cons, List.mem_singleton, List.not_mem_nil,
        or_false] at hc
      rcases hc with rfl | rfl | rfl | rfl <;> rfl
    have hSep : (applyOptions name [WithLength (L : Int), c]).Separator = [] := by
      simp only [caseOptions, List.mem_cons, List.mem_singleton, List.not_mem_nil,
        or_false] at hc
      rcases hc with rfl | rfl | rfl | rfl <;> rfl
    rw [GetInitials_unfold t m name _ hN hS, hW] at h
    simp only [Bool.false_eq_true, if_false] at h
    by_cases h0 : (wordsOf m name).length = 0
    · rw [if_pos h0] at h
      simp only [Option.some.injEq] at h
      subst h
      simp
    · rw [if_neg h0] at h
      have := wordLoop_length_le t _ (wordsOf m name) 0 _ [] r (wordsOf_ne_nil m name)
        (by omega) (by exact hSep) h
      change (r.length : Int) ≤ (([] : Str).length : Int) +
        max (applyOptions name [WithLength (L : Int), c]).remainingLength 0 at this
      rw [hR] at this
      simp only [List.length_nil] at this
      omega
  exact ⟨key, fun h0 => List.length_eq_zero.mp (by omega)⟩

/-- C5 at "John Doe" with length 3 in lowercase mode. -/
theorem C5_length_is_maximum_witness :
    GetInitials caseFragment friendlyLatin1 (runes "John Doe") [WithLength 3, WithLowercase]
      = some (runes "jdo") ∧
    (runes "jdo").length ≤ 3 ∧ (3 = 0 → runes "jdo" = []) :=
  ⟨by rfl, C5_length_is_maximum caseFragment friendlyLatin1 (runes "John Doe") 3 WithLowercase
    (runes "jdo") (by simp [caseOptions]) (by rfl)⟩

/-- C6: for a name that is empty or consists only of space and hyphen
characters, and for every list of options built from the public option
constructors, `GetInitials` returns the empty string. -/
theorem C6_only_delimiters_empty (t : CaseTables) (m : List (Str × List Str)) (name : Str)
    (options : List OptionFunc) (hm : FriendlyNonASCII m)
    (hname : ∀ c ∈ name, c = 0x20 ∨ c = 0x2D) (hopts : ∀ o ∈ options, PublicOption o) :
    GetInitials t m name options = some [] := by
  obtain ⟨hN, hS⟩ := applyOptions_public name options hopts
  have hplain : ∀ c ∈ name, c ≤ 0x7F ∧ c ≠ 0x2F := by
    intro c hc
    rcases hname c hc with h | h <;> omega
  have hwords : wordsOf m name = [] := by
    unfold wordsOf filterName
    rw [filters_of_plain m name hm hplain]
    apply fieldsLoop_of_all_delim
    intro c hc
    rcases hname c hc with h | h <;> subst h <;> rfl
  rw [GetInitials_unfold t m name options hN hS, hwords]
  rfl

/-- C6 at the name " - " with a separator, a negative length, camel case and
word-length mode. -/
theorem C6_only_delimiters_empty_witness :
    GetInitials caseFragment friendlyLatin1 (runes " - ")
      [WithSeparator (runes "."), WithLength (-3), WithCamelCase, WithWordLength] = some [] :=
  C6_only_delimiters_empty caseFragment friendlyLatin1 (runes " - ")
    [WithSeparator (runes "."), WithLength (-3), WithCamelCase, WithWordLength]
    (by decide) (by decide)
    (by
      intro o ho
      simp only [List.mem_cons, List.mem_singleton, List.not_mem_nil, or_false] at ho
      rcases ho with rfl | rfl | rfl | rfl
      · exact PublicOption.separator _
      · exact PublicOption.length _
      · exact PublicOption.camelCase
      · exact PublicOption.wordLength)

/-- C8: word-length mode overrides the target length.  For every name, every
integer `k` and all separator and case options placed before (`pre`) and after
(`post`), `GetInitials` with `WithWordLength()` and `WithLength(k)`, in either
order, returns what it returns with `WithLength(N)` in their place, `N` being
the number of words of the filtered name (also when `N = 0`).  The two calls
compared may range over the friendly-character map in different orders, `m1`
and `m2`; they are assumed to filter the name to the same string. -/
theorem C8_word_length_overrides (t : CaseTables) (m1 m2 : List (Str × List Str)) (name : Str)
    (k : Int) (pre post : List OptionFunc)
    (hfilter : filterName m1 name = filterName m2 name)
    (hpre : ∀ o ∈ pre, OtherOption o) (hpost : ∀ o ∈ post, OtherOption o) :
    GetInitials t m1 name (pre ++ WithWordLength :: WithLength k :: post) =
      GetInitials t m2 name (pre ++ WithLength ((wordsOf m2 name).length : Int) :: post) ∧
    GetInitials t m1 name (pre ++ WithLength k :: WithWordLength :: post) =
      GetInitials t m2 name (pre ++ WithLength ((wordsOf m2 name).length : Int) :: post) := by
  have hw : wordsOf m1 name = wordsOf m2 name := by
    unfold wordsOf
    rw [hfilter]
  have e3 := GetInitials_around t m2 name pre post
    (pre ++ WithLength ((wordsOf m2 name).length : Int) :: post)
    (WithLength ((wordsOf m2 name).length : Int)) ((wordsOf m2 name).length : Int) hpre hpost
    (by simp [applyOptions, List.foldl_append])
    (fun o => ⟨⟨rfl, rfl, rfl, rfl, rfl⟩, rfl, rfl⟩)
    (fun o ho => by
      have h1 : (WithLength ((wordsOf m2 name).length : Int) o).WordLength = false := ho
      rw [h1]; rfl)
  have e1 := GetInitials_around t m1 name pre post
    (pre ++ WithWordLength :: WithLength k :: post)
    (fun o => WithLength k (WithWordLength o)) ((wordsOf m1 name).length : Int) hpre hpost
    (by simp [applyOptions, List.foldl_append])
    (fun o => ⟨⟨rfl, rfl, rfl, rfl, rfl⟩, rfl, rfl⟩)
    (fun o _ => by
      have h1 : (WithLength k (WithWordLength o)).WordLength = true := rfl
      rw [h1]; rfl)
  have e2 := GetInitials_around t m1 name pre post
    (pre ++ WithLength k :: WithWordLength :: post)
    (fun o => WithWordLength (WithLength k o)) ((wordsOf m1 name).length : Int) hpre hpost
    (by simp [applyOptions, List.foldl_append])
    (fun o => ⟨⟨rfl, rfl, rfl, rfl, rfl⟩, rfl, rfl⟩)
    (fun o _ => by
      have h1 : (WithWordLength (WithLength k o)).WordLength = true := rfl
      rw [h1]; rfl)
  rw [hw] at e1 e2
  exact ⟨e1.trans e3.symm, e2.trans e3.symm⟩

/-- C8 at "Zoë-Kate Ólsen" (three words), the first call ranging over the map
in the listed order and the second in the reverse order, with a separator
before and camel case after the length options. -/
theorem C8_word_length_overrides_witness :
    GetInitials caseFragment friendlyLatin1 (runes "Zoë-Kate Ólsen")
        ([WithSeparator (runes ".")] ++ WithWordLength :: WithLength 7 :: [WithCamelCase]) =
      GetInitials caseFragment friendlyLatin1.reverse (runes "Zoë-Kate Ólsen")
        ([WithSeparator (runes ".")] ++ WithLength (3 : Nat) :: [WithCamelCase]) ∧
    GetInitials caseFragment friendlyLatin1 (runes "Zoë-Kate Ólsen")
        ([WithSeparator (runes ".")] ++ WithLength 7 :: WithWordLength :: [WithCamelCase]) =
      GetInitials caseFragment friendlyLatin1.reverse (runes "Zoë-Kate Ólsen")
        ([WithSeparator (runes ".")] ++ WithLength (3 : Nat) :: [WithCamelCase]) :=
  C8_word_length_overrides caseFragment friendlyLatin1 friendlyLatin1.reverse
    (runes "Zoë-Kate Ólsen") 7 [WithSeparator (runes ".")] [WithCamelCase] (by rfl)
    (by
      intro o ho
      simp only [List.mem_singleton] at ho
      subst ho
      exact OtherOption.separator _)
    (by
      intro o ho
      simp only [List.mem_singleton] at ho
      subst ho
      exact OtherOption.camelCase)

/-- C10: in camel-case mode only the first codepoint of each word's extracted
initial is uppercased and the rest is left exactly as found.  For every name
of ASCII-letter words and every target length `L ≥ 0`, with the empty
separator, the sensitive-mode result is the concatenation of the contributions
of the words (`specPieces`: the prefixes that the length apportionment
assigns), and the camel-case result is the concatenation of the same
contributions with the first character of each replaced by its uppercase and
every other character unchanged.  The two calls may range over the
friendly-character map in different orders, `m1` and `m2`. -/
theorem C10_camel_case_capitalizes_first (t : CaseTables) (m1 m2 : List (Str × List Str))
    (name : Str) (L : Nat) (hm1 : FriendlyNonASCII m1) (hm2 : FriendlyNonASCII m2)
    (hname : LetterName name) :
    GetInitials t m1 name [WithLength (L : Int), WithSensitive] =
      some (specPieces (strings.FieldsFunc name isDelimiter).length 0 L
        (strings.FieldsFunc name isDelimiter)).flatten ∧
    GetInitials t m2 name [WithLength (L : Int), WithCamelCase] =
      some ((specPieces (strings.FieldsFunc name isDelimiter).length 0 L
        (strings.FieldsFunc name isDelimiter)).map capitalizeFirst).flatten := by
  rw [GetInitials_of_plain t m1 name [WithLength (L : Int), WithSensitive] hm1 hname.plain
      rfl rfl,
    GetInitials_of_plain t m2 name [WithLength (L : Int), WithCamelCase] hm2 hname.plain
      rfl rfl]
  by_cases h0 : (strings.FieldsFunc name isDelimiter).length = 0
  · rw [if_pos h0, if_pos h0, List.length_eq_zero.mp h0]
    exact ⟨rfl, rfl⟩
  · rw [if_neg h0, if_neg h0]
    constructor
    · have e := wordLoop_pieces t (strings.FieldsFunc name isDelimiter).length id
        { WithSensitive (WithLength (L : Int) (defaultOptions name)) with Name := name }
        (fun o ho x _ => applyCase_sensitive t o x ho.2.1)
        (fun x hx => len_of_ascii x (letters_ascii x hx))
        (strings.FieldsFunc name isDelimiter) 0 L
        { WithSensitive (WithLength (L : Int) (defaultOptions name)) with Name := name } []
        hname.words (by omega) ⟨rfl, rfl, rfl, rfl, rfl⟩ rfl rfl
      simp only [List.map_id_fun, id_eq, List.nil_append] at e
      exact e
    · have e := wordLoop_pieces t (strings.FieldsFunc name isDelimiter).length capitalizeFirst
        { WithCamelCase (WithLength (L : Int) (defaultOptions name)) with Name := name }
        (fun o ho x hx => applyCase_camel_letters t o x ho.2.1 ho.2.2.1 ho.2.2.2.1
          ho.2.2.2.2 hx)
        (fun x hx => by
          rw [len_of_ascii _ (capitalizeFirst_ascii x hx), capitalizeFirst_length])
        (strings.FieldsFunc name isDelimiter) 0 L
        { WithCamelCase (WithLength (L : Int) (defaultOptions name)) with Name := name } []
        hname.words (by omega) ⟨rfl, rfl, rfl, rfl, rfl⟩ rfl rfl
      simp only [List.nil_append] at e
      exact e

/-- C10 at "John Doe" with length 3 ("JDo" in camel case), at "John" with
length 3 ("Joh") and at "mary-kate olsen" with length 5 ("mkaol" as found,
"MKaOl" in camel case). -/
theorem C10_camel_case_capitalizes_first_witness :
    GetInitials caseFragment friendlyLatin1.reverse (runes "John Doe")
      [WithLength (3 : Nat), WithCamelCase] = some (runes "JDo") ∧
    GetInitials caseFragment friendlyLatin1.reverse (runes "John")
      [WithLength (3 : Nat), WithCamelCase] = some (runes "Joh") ∧
    GetInitials caseFragment friendlyLatin1 (runes "mary-kate olsen")
      [WithLength (5 : Nat), WithSensitive] = some (runes "mkaol") ∧
    GetInitials caseFragment friendlyLatin1.reverse (runes "mary-kate olsen")
      [WithLength (5 : Nat), WithCamelCase] = some (runes "MKaOl") :=
  ⟨(C10_camel_case_capitalizes_first caseFragment friendlyLatin1 friendlyLatin1.reverse
      (runes "John Doe") 3 (by decide) (by decide) (by decide)).2,
   (C10_camel_case_capitalizes_first caseFragment friendlyLatin1 friendlyLatin1.reverse
      (runes "John") 3 (by decide) (by decide) (by decide)).2,
   (C10_camel_case_capitalizes_first caseFragment friendlyLatin1 friendlyLatin1.reverse
      (runes "mary-kate olsen") 5 (by decide) (by decide) (by decide)).1,
   (C10_camel_case_capitalizes_first caseFragment friendlyLatin1 friendlyLatin1.reverse
      (runes "mary-kate olsen") 5 (by decide) (by decide) (by decide)).2⟩

/-! ## Case options -/

theorem GetInitials_congr_options (t : CaseTables) (m : List (Str × List Str)) (name : Str)
    (os1 os2 : List OptionFunc) (h : applyOptions name os1 = applyOptions name os2) :
    GetInitials t m name os1 = GetInitials t m name os2 := by
  unfold applyOptions at h
  unfold GetInitials
  simp only [h]

theorem foldl_calls_overwrite (cs : List OptionCall) (h : cs.any OptionCall.isCase = true) :
    ∀ o1 o2 : generatorOptions, SameButCase o1 o2 →
      (cs.map OptionCall.toOption).foldl (fun opts option => option opts) o1 =
        (cs.map OptionCall.toOption).foldl (fun opts option => option opts) o2 := by
  induction cs with
  | nil => simp at h
  | cons c cs ih =>
    intro o1 o2 hs
    obtain ⟨h1, h2, h3, h4, h5, h6⟩ := hs
    simp only [List.map_cons, List.foldl_cons]
    by_cases hc : c.isCase = true
    · have e : c.toOption o1 = c.toOption o2 := by
        cases o1; cases o2
        simp only at h1 h2 h3 h4 h5 h6
        subst h1 h2 h3 h4 h5 h6
        cases c <;> first | rfl | simp [OptionCall.isCase] at hc
      rw [e]
    · have hcs : cs.any OptionCall.isCase = true := by
        simp only [List.any_cons, Bool.or_eq_true] at h
        rcases h with h | h
        · exact absurd h hc
        · exact h
      apply ih hcs
      cases c <;> first
        | exact ⟨h1, rfl, h3, h4, h5, h6⟩
        | exact ⟨h1, h2, h3, rfl, h5, rfl⟩
        | exact ⟨h1, h2, h3, h4, rfl, h6⟩
        | simp [OptionCall.isCase] at hc

theorem foldl_dropEarlierCases (calls : List OptionCall) :
    ∀ o0 : generatorOptions,
      ((dropEarlierCases calls).map OptionCall.toOption).foldl
          (fun opts option => option opts) o0 =
        (calls.map OptionCall.toOption).foldl (fun opts option => option opts) o0 := by
  induction calls with
  | nil => intro o0; rfl
  | cons c cs ih =>
    intro o0
    unfold dropEarlierCases
    by_cases h : (c.isCase && cs.any OptionCall.isCase) = true
    · rw [if_pos h, ih o0]
      simp only [Bool.and_eq_true] at h
      simp only [List.map_cons, List.foldl_cons]
      apply foldl_calls_overwrite cs h.2
      cases c <;> first
        | exact ⟨rfl, rfl, rfl, rfl, rfl, rfl⟩
        | simp [OptionCall.isCase] at h
    · rw [if_neg h]
      simp only [List.map_cons, List.foldl_cons]
      exact ih _

theorem caseFlags_calls (name : Str) (calls : List OptionCall) :
    caseFlags (applyOptions name (calls.map OptionCall.toOption)) = lastCaseFlags calls := by
  induction calls using List.reverseRecOn with
  | nil => rfl
  | append_singleton cs c ih =>
    unfold applyOptions at ih ⊢
    unfold lastCaseFlags at ih ⊢
    simp only [List.map_append, List.map_cons, List.map_nil, List.foldl_append, List.foldl_cons,
      List.foldl_nil, List.filter_append]
    cases c with
    | withSeparator s =>
      simp only [List.filter_cons, OptionCall.isCase, List.filter_nil, List.append_nil,
        Bool.false_eq_true, if_false]
      exact ih
    | withLength n =>
      simp only [List.filter_cons, OptionCall.isCase, List.filter_nil, List.append_nil,
        Bool.false_eq_true, if_false]
      exact ih
    | withWordLength =>
      simp only [List.filter_cons, OptionCall.isCase, List.filter_nil, List.append_nil,
        Bool.false_eq_true, if_false]
      exact ih
    | withSensitive =>
      simp only [List.filter_cons, OptionCall.isCase, List.filter_nil, if_true,
        List.getLast?_concat]
      rfl
    | withLowercase =>
      simp only [List.filter_cons, OptionCall.isCase, List.filter_nil, if_true,
        List.getLast?_concat]
      rfl
    | withUppercase =>
      simp only [List.filter_cons, OptionCall.isCase, List.filter_nil, if_true,
        List.getLast?_concat]
      rfl
    | withCamelCase =>
      simp only [List.filter_cons, OptionCall.isCase, List.filter_nil, if_true,
        List.getLast?_concat]
      rfl

theorem lastCaseFlags_one_hot (calls : List OptionCall) :
    lastCaseFlags calls = (true, false, false, false) ∨
    lastCaseFlags calls = (false, true, false, false) ∨
    lastCaseFlags calls = (false, false, true, false) ∨
    lastCaseFlags calls = (false, false, false, true) := by
  unfold lastCaseFlags
  split
  · exact Or.inl rfl
  · exact Or.inr (Or.inl rfl)
  · exact Or.inr (Or.inr (Or.inr rfl))
  · exact Or.inr (Or.inr (Or.inl rfl))

theorem toOption_public (c : OptionCall) : PublicOption c.toOption := by
  cases c
  · exact PublicOption.separator _
  · exact PublicOption.sensitive
  · exact PublicOption.lowercase
  · exact PublicOption.uppercase
  · exact PublicOption.camelCase
  · exact PublicOption.length _
  · exact PublicOption.wordLength

/-- Two calls with public options that build the same configuration and
filter the name to the same string return the same result. -/
theorem GetInitials_congr_filter (t : CaseTables) (m1 m2 : List (Str × List Str)) (name : Str)
    (os1 os2 : List OptionFunc) (h1 : ∀ o ∈ os1, PublicOption o)
    (h2 : ∀ o ∈ os2, PublicOption o) (hopts : applyOptions name os1 = applyOptions name os2)
    (hfilter : filterName m1 name = filterName m2 name) :
    GetInitials t m1 name os1 = GetInitials t m2 name os2 := by
  obtain ⟨hN1, hS1⟩ := applyOptions_public name os1 h1
  obtain ⟨hN2, hS2⟩ := applyOptions_public name os2 h2
  have hw : wordsOf m1 name = wordsOf m2 name := by
    unfold wordsOf
    rw [hfilter]
  rw [GetInitials_unfold t m1 name os1 hN1 hS1, GetInitials_unfold t m2 name os2 hN2 hS2,
    hw, hfilter, hopts]

/-- C11: case modes are mutually exclusive and the last one applied wins.
After any sequence of public option calls on the default configuration exactly
one of the flags `Sensitive`, `Lowercase`, `Uppercase`, `CamelCase` is true,
it is the flag of the last case option of the sequence (`Uppercase` when there
is none), and `GetInitials` returns what it returns with all but the last
case option removed.  The two calls compared may range over the
friendly-character map in different orders, `m1` and `m2`; they are assumed
to filter the name to the same string. -/
theorem C11_last_case_option_wins (t : CaseTables) (name : Str) (calls : List OptionCall) :
    caseFlags (applyOptions name (calls.map OptionCall.toOption)) = lastCaseFlags calls ∧
    ((applyOptions name (calls.map OptionCall.toOption)).Sensitive.toNat +
      (applyOptions name (calls.map OptionCall.toOption)).Lowercase.toNat +
      (applyOptions name (calls.map OptionCall.toOption)).Uppercase.toNat +
      (applyOptions name (calls.map OptionCall.toOption)).CamelCase.toNat = 1) ∧
    (∀ m1 m2 : List (Str × List Str), filterName m1 name = filterName m2 name →
      GetInitials t m1 name (calls.map OptionCall.toOption) =
        GetInitials t m2 name ((dropEarlierCases calls).map OptionCall.toOption)) := by
  have hf := caseFlags_calls name calls
  refine ⟨hf, ?_, ?_⟩
  · unfold caseFlags at hf
    rcases lastCaseFlags_one_hot calls with h | h | h | h <;>
    · rw [h] at hf
      simp only [Prod.mk.injEq] at hf
      obtain ⟨h1, h2, h3, h4⟩ := hf
      rw [h1, h2, h3, h4]
      rfl
  · intro m1 m2 hfilter
    apply GetInitials_congr_filter t m1 m2 name _ _ _ _ _ hfilter
    · intro o ho
      obtain ⟨c, _, rfl⟩ := List.mem_map.mp ho
      exact toOption_public c
    · intro o ho
      obtain ⟨c, _, rfl⟩ := List.mem_map.mp ho
      exact toOption_public c
    · unfold applyOptions
      exact (foldl_dropEarlierCases calls (defaultOptions name)).symm

/-- C11 at "Zoë Ólsen" with the calls sensitive, separator ".", lowercase,
length 3: the first call ranges over the map in the listed order, the second,
without the sensitive option, in the reverse order; both return "z.ol". -/
theorem C11_last_case_option_wins_witness :
    GetInitials caseFragment friendlyLatin1 (runes "Zoë Ólsen")
        [WithSensitive, WithSeparator (runes "."), WithLowercase, WithLength 3] =
      GetInitials caseFragment friendlyLatin1.reverse (runes "Zoë Ólsen")
        [WithSeparator (runes "."), WithLowercase, WithLength 3] ∧
    GetInitials caseFragment friendlyLatin1.reverse (runes "Zoë Ólsen")
        [WithSeparator (runes "."), WithLowercase, WithLength 3] = some (runes "z.ol") :=
  ⟨(C11_last_case_option_wins caseFragment (runes "Zoë Ólsen")
      [OptionCall.withSensitive, OptionCall.withSeparator (runes "."),
        OptionCall.withLowercase, OptionCall.withLength 3]).2.2
      friendlyLatin1 friendlyLatin1.reverse (by rfl), by rfl⟩

/-- C12: the special characters are not stripped.  The pattern of
`replaceSpecialCharacters` only matches a special character between two
slashes, so the name "@John Doe" is left unchanged and its initials with the
default options are "@D", not "JD". -/
theorem C12_special_characters_kept :
    replaceSpecialCharacters (runes "@John Doe") = runes "@John Doe" ∧
    GetInitials caseFragment friendlyLatin1 (runes "@John Doe") [] = some (runes "@D") ∧
    replaceSpecialCharacters (runes "a/@/b") = runes "ab" := by
  refine ⟨?_, ?_, ?_⟩ <;> rfl

/-- C14: a larger target length can give a shorter result.  On the name
"a b😅 xyz" length 4 yields "ABXY" (four codepoints) and length 6 yields
"AB😅" (three codepoints): the second word then costs five units of budget. -/
theorem C14_length_not_monotone :
    GetInitials caseFragment friendlyLatin1 (runes "a b😅 xyz") [WithLength 4]
      = some (runes "ABXY") ∧
    GetInitials caseFragment friendlyLatin1 (runes "a b😅 xyz") [WithLength 6]
      = some (runes "AB😅") := by
  constructor <;> rfl

/-! ## Single words -/

theorem initialLength_single (r : Int) : initialLength 1 0 r = r :=
  initialLength_last 1 0 r rfl

theorem wordLoop_single_upper (t : CaseTables) (w : Str) (opts : generatorOptions) (L : Nat)
    (hw : w ≠ [] ∧ ∀ c ∈ w, isASCIILetter c) (hrem : opts.remainingLength = (L : Int))
    (hsep : opts.Separator = []) (hS : opts.Sensitive = false) (hL : opts.Lowercase = false)
    (hU : opts.Uppercase = true) :
    wordLoop t 1 0 [w] opts [] = some ((w.take L).map upperASCII) := by
  rcases Nat.eq_zero_or_pos L with h0 | hpos
  · subst h0
    rw [wordLoop, if_pos (by rw [hrem]; rfl)]
    rfl
  · rw [wordLoop_step_nosep t 1 0 w [] opts [] hw.1 hsep (by rw [hrem]; omega)
      (by rw [initialLength_single, hrem]; omega), initialLength_single, hrem]
    simp only [Int.toNat_ofNat, wordLoop, List.nil_append]
    rw [applyCase_upper_letters t opts _ hS hL hU
      (fun c hc => hw.2 c (List.mem_of_mem_take hc))]

/-- C15: for a name consisting of a single word `w` of ASCII letters and every
target length `L ≥ 0`, `GetInitials` with `WithLength(L)` and the default
uppercase mode returns the uppercased first `min(L, |w|)` characters of `w`. -/
theorem C15_single_word (t : CaseTables) (m : List (Str × List Str)) (name w : Str) (L : Nat)
    (hm : FriendlyNonASCII m) (hname : LetterName name)
    (hwords : strings.FieldsFunc name isDelimiter = [w]) :
    GetInitials t m name [WithLength (L : Int)] =
      some ((w.take (min L w.length)).map upperASCII) := by
  have hw := hname.words
  rw [hwords] at hw
  rw [GetInitials_of_plain t m name [WithLength (L : Int)] hm hname.plain rfl rfl, hwords]
  have h0 : ¬ ([w].length = 0) := by simp
  rw [if_neg h0]
  have hmin : w.take (min L w.length) = w.take L := List.take_eq_take.mpr (by simp)
  rw [hmin]
  exact wordLoop_single_upper t w _ L (hw w (by simp)) rfl rfl rfl rfl rfl

/-- C15 at "John" with length 3. -/
theorem C15_single_word_witness :
    GetInitials caseFragment friendlyLatin1 (runes "John") [WithLength (3 : Nat)]
      = some (runes "JOH") :=
  C15_single_word caseFragment friendlyLatin1 (runes "John") (runes "John") 3
    (by decide) (by decide) (by decide)

/-! ## A single codepoint without case mapping -/

theorem foldl_Replace_of_absent (key : Str) (vs : List Str) (name : Str)
    (hv : ∀ v ∈ vs, ∃ d ∈ v, d ∉ name) :
    vs.foldl (fun name char => strings.Replace name char key) name = name := by
  induction vs with
  | nil => rfl
  | cons v vs ih =>
    have h1 : strings.Replace name v key = name := Replace_of_absent _ _ _ (hv v (by simp))
    simp only [List.foldl_cons, h1]
    exact ih (fun w hw => hv w (by simp [hw]))

theorem foldl_friendly_of_absent (m : List (Str × List Str)) (name : Str)
    (hm : ∀ kv ∈ m, ∀ v ∈ kv.2, ∃ d ∈ v, d ∉ name) :
    m.foldl (fun name kv => kv.2.foldl (fun name char => strings.Replace name char kv.1) name)
      name = name := by
  induction m with
  | nil => rfl
  | cons kv m ih =>
    have h1 := foldl_Replace_of_absent kv.1 kv.2 name (hm kv (by simp))
    simp only [List.foldl_cons, h1]
    exact ih (fun kv2 hkv => hm kv2 (by simp [hkv]))

theorem applyCase_fixed (t : CaseTables) (opts : generatorOptions) (c : Nat)
    (hu : unicode.ToUpper t c = c) (hl : unicode.ToLower t c = c) :
    applyCase t opts [c] = [c] := by
  unfold applyCase
  split_ifs
  · rfl
  · simp [strings.ToLower, hl]
  · simp [strings.ToUpper, hu]
  · simp [hu]
  · rfl

/-- C16: for a name consisting of a single codepoint `c` outside ASCII that
has no upper/lower case mapping and is not a folding variant, for every target
length `L ≥ 1` and every case mode, `GetInitials` returns exactly the
one-codepoint string `c`. -/
theorem C16_single_codepoint (t : CaseTables) (m : List (Str × List Str)) (c L : Nat)
    (mode : OptionFunc) (hc : 0x7F < c) (hup : t.upper c = c) (hlow : t.lower c = c)
    (hm : ∀ kv ∈ m, ∀ v ∈ kv.2, ∃ d ∈ v, d ≠ c) (hL : 1 ≤ L) (hmode : mode ∈ caseOptions) :
    GetInitials t m [c] [WithLength (L : Int), mode] = some [c] := by
  have hslash : ∀ d ∈ [c], d ≠ 0x2F := by
    intro d hd
    simp only [List.mem_singleton] at hd
    omega
  have hfilter : filterName m [c] = [c] := by
    unfold filterName
    rw [replaceSpecialCharacters_of_no_slash [c] hslash]
    unfold replaceFriendlyCharacters
    simp only
    rw [foldl_friendly_of_absent m [c] (fun kv hkv v hv => by
      obtain ⟨d, hd, hne⟩ := hm kv hkv v hv
      exact ⟨d, hd, by simpa using hne⟩)]
    exact stripNonPrintable_of_no_slash [c] hslash
  have hwords : wordsOf m [c] = [[c]] := by
    unfold wordsOf
    rw [hfilter]
    have hd : isDelimiter c = false := by
      unfold isDelimiter
      have h1 : c ≠ 0x20 := by omega
      have h2 : c ≠ 0x2D := by omega
      simp [h1, h2]
    simp [strings.FieldsFunc, strings.fieldsLoop, hd]
  have hu : unicode.ToUpper t c = c := by
    unfold unicode.ToUpper
    rw [if_neg (by omega), hup]
  have hl : unicode.ToLower t c = c := by
    unfold unicode.ToLower
    rw [if_neg (by omega), hlow]
  have key : ∀ opts : generatorOptions, opts.remainingLength = (L : Int) →
      opts.Separator = [] → wordLoop t 1 0 [[c]] opts [] = some [c] := by
    intro opts hrem hsep
    rw [wordLoop_step_nosep t 1 0 [c] [] opts [] (by simp) hsep (by rw [hrem]; omega)
      (by rw [initialLength_single, hrem]; omega), initialLength_single, hrem]
    have htake : List.take ((L : Int)).toNat [c] = [c] := by
      rw [Int.toNat_ofNat]
      exact List.take_of_length_le (by simpa using hL)
    simp only [htake, wordLoop, List.nil_append]
    rw [applyCase_fixed t opts c hu hl]
  simp only [caseOptions, List.mem_cons, List.mem_singleton, List.not_mem_nil,
    or_false] at hmode
  rcases hmode with rfl | rfl | rfl | rfl
  · rw [GetInitials_unfold t m [c] [WithLength (L : Int), WithSensitive] rfl rfl, hwords]
    exact key _ rfl rfl
  · rw [GetInitials_unfold t m [c] [WithLength (L : Int), WithLowercase] rfl rfl, hwords]
    exact key _ rfl rfl
  · rw [GetInitials_unfold t m [c] [WithLength (L : Int), WithUppercase] rfl rfl, hwords]
    exact key _ rfl rfl
  · rw [GetInitials_unfold t m [c] [WithLength (L : Int), WithCamelCase] rfl rfl, hwords]
    exact key _ rfl rfl

/-- C16 at the emoji `U+1F605` with length 2 in camel-case mode. -/
theorem C16_single_codepoint_witness :
    GetInitials caseFragment friendlyLatin1 [0x1F605] [WithLength (2 : Nat), WithCamelCase]
      = some [0x1F605] :=
  C16_single_codepoint caseFragment friendlyLatin1 0x1F605 2 WithCamelCase (by decide) (by rfl)
    (by rfl) (by decide) (by decide) (by simp [caseOptions])

/-! ## Words long enough for the budget -/

/-- An iteration in uppercase mode with the empty separator on a word of ASCII
letters that has at least the `k` characters asked for. -/
theorem wordLoop_step_upper (t : CaseTables) (n i : Nat) (w : Str) (rest : List Str)
    (opts : generatorOptions) (initials : Str) (r k : Nat)
    (hw : ∀ c ∈ w, isASCIILetter c) (hsep : opts.Separator = [])
    (hS : opts.Sensitive = false) (hL : opts.Lowercase = false) (hU : opts.Uppercase = true)
    (hrem : opts.remainingLength = (r : Int)) (hk : initialLength n i (r : Int) = (k : Int))
    (hk0 : 0 < k) (hkr : k ≤ r) (hkw : k ≤ w.length) :
    wordLoop t n i (w :: rest) opts initials =
      wordLoop t n (i + 1) rest { opts with remainingLength := ((r - k : Nat) : Int) }
        (initials ++ (w.take k).map upperASCII) := by
  have hne : w ≠ [] := by
    intro h
    rw [h] at hkw
    simp at hkw
    omega
  have hcase : applyCase t opts (w.take k) = (w.take k).map upperASCII :=
    applyCase_upper_letters t opts _ hS hL hU (fun c hc => hw c (List.mem_of_mem_take hc))
  have hlen : len ((w.take k).map upperASCII) = k := by
    rw [len_upper_letters _ (fun c hc => hw c (List.mem_of_mem_take hc)), List.length_take]
    omega
  rw [wordLoop_step_nosep t n i w rest opts initials hne hsep (by rw [hrem]; omega)
    (by rw [hrem, hk]; omega), hrem, hk, Int.toNat_ofNat, hcase, hlen]
  have e : (r : Int) - (k : Int) = ((r - k : Nat) : Int) := by omega
  rw [e]

theorem initialLength_middle_of_three (r : Nat) (hr : 2 ≤ r) :
    initialLength 3 1 (r : Int) = ((r / 2 : Nat) : Int) := by
  unfold initialLength
  simp only
  have h1 : ¬ (((1 : Nat) : Int) = ((3 : Nat) : Int) - 1) := by omega
  have h2 : ¬ ((1 : Nat) = 0 ∧ 3 > 1) := by omega
  have h3 : ¬ ((r : Int) < ((3 : Nat) : Int) - ((1 : Nat) : Int)) := by omega
  have h4 : ((3 : Nat) : Int) - ((1 : Nat) : Int) = 2 := by omega
  rw [if_neg h1, if_neg h2, if_neg h3, h4]
  split_ifs with h5
  · omega
  · omega

theorem wordLoop_three_words (t : CaseTables) (w0 w1 w2 : Str) (opts : generatorOptions)
    (L : Nat) (hL3 : 3 ≤ L)
    (h0 : (∀ c ∈ w0, isASCIILetter c) ∧ L ≤ w0.length)
    (h1 : (∀ c ∈ w1, isASCIILetter c) ∧ L ≤ w1.length)
    (h2 : (∀ c ∈ w2, isASCIILetter c) ∧ L ≤ w2.length)
    (hrem : opts.remainingLength = (L : Int)) (hsep : opts.Separator = [])
    (hS : opts.Sensitive = false) (hL : opts.Lowercase = false) (hU : opts.Uppercase = true) :
    wordLoop t 3 0 [w0, w1, w2] opts [] =
      some ((w0.take 1).map upperASCII ++ (w1.take ((L - 1) / 2)).map upperASCII ++
        (w2.take (L - 1 - (L - 1) / 2)).map upperASCII) := by
  rw [wordLoop_step_upper t 3 0 w0 [w1, w2] opts [] L 1 h0.1 hsep hS hL hU hrem
    (initialLength_first 3 _ (by omega)) (by omega) (by omega) (by omega)]
  rw [wordLoop_step_upper t 3 (0 + 1) w1 [w2]
    { opts with remainingLength := ((L - 1 : Nat) : Int) } _ (L - 1) ((L - 1) / 2)
    h1.1 hsep hS hL hU rfl
    (initialLength_middle_of_three (L - 1) (by omega)) (by omega) (by omega) (by omega)]
  rw [wordLoop_step_upper t 3 (0 + 1 + 1) w2 []
    { opts with remainingLength := ((L - 1 - (L - 1) / 2 : Nat) : Int) } _
    (L - 1 - (L - 1) / 2) (L - 1 - (L - 1) / 2) h2.1 hsep hS hL hU rfl
    (initialLength_last 3 _ _ (by omega)) (by omega) (by omega) (by omega)]
  simp only [wordLoop, List.nil_append]

/-- C17: floor apportionment for middle words.  For a name of exactly three
words of ASCII letters, each at least `L` characters long, and every target
length `L ≥ 3`, with the empty separator and the default uppercase mode the
three words contribute respectively `1`, `floor((L-1)/2)` and
`(L-1) - floor((L-1)/2)` leading characters. -/
theorem C17_three_words_floor (t : CaseTables) (m : List (Str × List Str))
    (name w0 w1 w2 : Str) (L : Nat) (hm : FriendlyNonASCII m) (hname : LetterName name)
    (hwords : strings.FieldsFunc name isDelimiter = [w0, w1, w2]) (hL : 3 ≤ L)
    (h0 : L ≤ w0.length) (h1 : L ≤ w1.length) (h2 : L ≤ w2.length) :
    GetInitials t m name [WithLength (L : Int)] =
      some ((w0.take 1).map upperASCII ++ (w1.take ((L - 1) / 2)).map upperASCII ++
        (w2.take (L - 1 - (L - 1) / 2)).map upperASCII) ∧
    (w0.take 1).length = 1 ∧ (w1.take ((L - 1) / 2)).length = (L - 1) / 2 ∧
    (w2.take (L - 1 - (L - 1) / 2)).length = L - 1 - (L - 1) / 2 := by
  have hw := hname.words
  rw [hwords] at hw
  refine ⟨?_, ?_, ?_, ?_⟩
  · rw [GetInitials_of_plain t m name [WithLength (L : Int)] hm hname.plain rfl rfl, hwords]
    have hn : ¬ ([w0, w1, w2].length = 0) := by simp
    rw [if_neg hn]
    exact wordLoop_three_words t w0 w1 w2 _ L hL ⟨(hw w0 (by simp)).2, h0⟩
      ⟨(hw w1 (by simp)).2, h1⟩ ⟨(hw w2 (by simp)).2, h2⟩ rfl rfl rfl rfl rfl
  · rw [List.length_take]; omega
  · rw [List.length_take]; omega
  · rw [List.length_take]; omega

/-- C17 at "Mary-Kate Olsen" with length 4. -/
theorem C17_three_words_floor_witness :
    GetInitials caseFragment friendlyLatin1 (runes "Mary-Kate Olsen") [WithLength (4 : Nat)]
      = some (runes "MKOL") :=
  (C17_three_words_floor caseFragment friendlyLatin1 (runes "Mary-Kate Olsen") (runes "Mary")
    (runes "Kate") (runes "Olsen") 4 (by decide) (by decide) (by decide) (by decide)
    (by decide) (by decide) (by decide)).1

theorem wordLoop_exact (t : CaseTables) (n : Nat) :
    ∀ (ws : List Str) (i r : Nat) (opts : generatorOptions) (initials : Str),
      (∀ w ∈ ws, (∀ c ∈ w, isASCIILetter c) ∧ r ≤ w.length) → i + ws.length = n →
      (ws = [] → r = 0) → opts.remainingLength = (r : Int) → opts.Separator = [] →
      opts.Sensitive = false → opts.Lowercase = false → opts.Uppercase = true →
      ∃ res : Str, wordLoop t n i ws opts initials = some res ∧
        res.length = initials.length + r := by
  intro ws
  induction ws with
  | nil =>
    intro i r opts initials _ _ h0 _ _ _ _ _
    exact ⟨initials, rfl, by rw [h0 rfl]; rfl⟩
  | cons w rest ih =>
    intro i r opts initials hws hi _ hrem hsep hS hL hU
    simp only [List.length_cons] at hi
    rcases Nat.eq_zero_or_pos r with h0 | hpos
    · subst h0
      refine ⟨initials, ?_, rfl⟩
      rw [wordLoop, if_pos (by rw [hrem]; rfl)]
    · obtain ⟨hwl, hwr⟩ := hws w (by simp)
      obtain ⟨hl0, hl1⟩ := initialLength_bounds n i (r : Int) (by omega) (by omega)
      have hk : initialLength n i (r : Int) = (((initialLength n i (r : Int)).toNat : Nat) : Int) :=
        by omega
      rw [wordLoop_step_upper t n i w rest opts initials r (initialLength n i (r : Int)).toNat
        hwl hsep hS hL hU hrem hk (by omega) (by omega) (by omega)]
      obtain ⟨res, e1, e2⟩ := ih (i + 1) (r - (initialLength n i (r : Int)).toNat)
        { opts with remainingLength := ((r - (initialLength n i (r : Int)).toNat : Nat) : Int) }
        (initials ++ (w.take (initialLength n i (r : Int)).toNat).map upperASCII)
        (fun w2 h2 => ⟨(hws w2 (by simp [h2])).1, by
          have := (hws w2 (by simp [h2])).2
          omega⟩)
        (by omega)
        (by
          intro hrest
          rw [hrest] at hi
          simp only [List.length_nil] at hi
          have := initialLength_last n i (r : Int) (by omega)
          omega)
        rfl hsep hS hL hU
      refine ⟨res, e1, ?_⟩
      rw [e2, List.length_append, List.length_map, List.length_take]
      omega

/-- C18: the budget is used exactly when the words are long enough.  For a
name of `N ≥ 1` words of ASCII letters in which every word has at least `L`
characters, and every target length `L ≥ 0`, `GetInitials` with
`WithLength(L)` and the empty separator returns a string of exactly `L`
characters. -/
theorem C18_budget_used_exactly (t : CaseTables) (m : List (Str × List Str)) (name : Str)
    (L : Nat) (hm : FriendlyNonASCII m) (hname : LetterName name)
    (hN : 1 ≤ (strings.FieldsFunc name isDelimiter).length)
    (hlong : ∀ w ∈ strings.FieldsFunc name isDelimiter, L ≤ w.length) :
    ∃ res : Str, GetInitials t m name [WithLength (L : Int)] = some res ∧ res.length = L := by
  rw [GetInitials_of_plain t m name [WithLength (L : Int)] hm hname.plain rfl rfl]
  have hn : ¬ ((strings.FieldsFunc name isDelimiter).length = 0) := by omega
  rw [if_neg hn]
  obtain ⟨res, e1, e2⟩ := wordLoop_exact t (strings.FieldsFunc name isDelimiter).length
    (strings.FieldsFunc name isDelimiter) 0 L
    { WithLength (L : Int) (defaultOptions name) with Name := name } []
    (fun w hw => ⟨(hname.words w hw).2, hlong w hw⟩) (by omega)
    (by
      intro h
      rw [h] at hN
      simp at hN)
    rfl rfl rfl rfl rfl
  exact ⟨res, e1, by simpa using e2⟩

/-- C18 at "Mary-Kate Olsen" with length 4. -/
theorem C18_budget_used_exactly_witness :
    ∃ res : Str, GetInitials caseFragment friendlyLatin1 (runes "Mary-Kate Olsen")
      [WithLength (4 : Nat)] = some res ∧ res.length = 4 :=
  C18_budget_used_exactly caseFragment friendlyLatin1 (runes "Mary-Kate Olsen") 4
    (by decide) (by decide) (by decide) (by decide)

/-! ## Contributions are prefixes of the words, in order -/

theorem initialLength_ne_zero (n i : Nat) (r : Int) (hr : r ≠ 0) (hi : i < n) :
    initialLength n i r ≠ 0 := by
  rcases lt_or_gt_of_ne hr with h | h
  · by_cases hlast : i + 1 = n
    · rw [initialLength_last n i r hlast]; exact hr
    · rw [initialLength_of_neg n i r h (by omega)]; omega
  · have := (initialLength_bounds n i r h hi).1
    omega

theorem wordLoop_prefixes (t : CaseTables) (n : Nat) :
    ∀ (ws : List Str) (i : Nat) (opts : generatorOptions) (initials r : Str),
      (∀ w ∈ ws, w ≠ []) → i + ws.length = n → opts.Separator = [] →
      opts.Sensitive = true → wordLoop t n i ws opts initials = some r →
      ∃ ps : List Str, r = initials ++ ps.flatten ∧ ps.length ≤ ws.length ∧
        List.Forall₂ (fun p w => p ≠ [] ∧ p <+: w) ps (ws.take ps.length) := by
  intro ws
  induction ws with
  | nil =>
    intro i opts initials r _ _ _ _ h
    simp only [wordLoop, Option.some.injEq] at h
    exact ⟨[], by simp [h], by simp, by simp⟩
  | cons w rest ih =>
    intro i opts initials r hws hi hsep hS h
    have hw : w ≠ [] := hws w (by simp)
    simp only [List.length_cons] at hi
    by_cases h0 : opts.remainingLength = 0
    · rw [wordLoop, if_pos h0] at h
      simp only [Option.some.injEq] at h
      exact ⟨[], by simp [h], by simp, by simp⟩
    · have hne := initialLength_ne_zero n i opts.remainingLength h0 (by omega)
      rcases lt_or_gt_of_ne hne with hneg | hpos
      · rw [wordLoop_neg t n i w rest opts initials hw h0 hneg] at h
        exact absurd h (by simp)
      · rw [wordLoop_step_nosep t n i w rest opts initials hw hsep h0 hpos,
          applyCase_sensitive t opts _ hS] at h
        obtain ⟨ps, e1, e2, e3⟩ := ih (i + 1) _ _ r (fun w2 h2 => hws w2 (by simp [h2]))
          (by omega) (by exact hsep) (by exact hS) h
        have hpne : w.take (initialLength n i opts.remainingLength).toNat ≠ [] := by
          intro hnil
          rcases List.take_eq_nil_iff.mp hnil with h6 | h6
          · omega
          · exact hw h6
        refine ⟨w.take (initialLength n i opts.remainingLength).toNat :: ps, ?_, ?_, ?_⟩
        · rw [e1]; simp
        · simp only [List.length_cons]; omega
        · simp only [List.length_cons, List.take_succ_cons]
          exact List.Forall₂.cons ⟨hpne, List.take_prefix _ _⟩ e3

/-- C19: no word is skipped and order is kept.  For every name and every
target length `L ≥ 0`, whenever `GetInitials` in sensitive mode with the empty
separator returns, the result is the concatenation `p_0 ... p_(k-1)` for some
`k ≤ N`, where `p_i` is a non-empty prefix of the `i`-th word of the filtered
name. -/
theorem C19_prefixes_in_order (t : CaseTables) (m : List (Str × List Str)) (name : Str)
    (L : Nat) (r : Str)
    (h : GetInitials t m name [WithLength (L : Int), WithSensitive] = some r) :
    ∃ ps : List Str, r = ps.flatten ∧ ps.length ≤ (wordsOf m name).length ∧
      List.Forall₂ (fun p w => p ≠ [] ∧ p <+: w) ps ((wordsOf m name).take ps.length) := by
  rw [GetInitials_unfold t m name [WithLength (L : Int), WithSensitive] rfl rfl] at h
  by_cases h0 : (wordsOf m name).length = 0
  · rw [if_pos h0] at h
    simp only [Option.some.injEq] at h
    exact ⟨[], by simp [← h], by simp, by simp⟩
  · rw [if_neg h0] at h
    obtain ⟨ps, e1, e2, e3⟩ := wordLoop_prefixes t (wordsOf m name).length (wordsOf m name) 0
      { WithSensitive (WithLength (L : Int) (defaultOptions name)) with
        Name := filterName m name } [] r
      (wordsOf_ne_nil m name) (by omega) rfl rfl h
    exact ⟨ps, by simpa using e1, e2, e3⟩

/-- C19 at "John Doe" with length 3. -/
theorem C19_prefixes_in_order_witness :
    ∃ ps : List Str, runes "JDo" = ps.flatten ∧
      ps.length ≤ (wordsOf friendlyLatin1 (runes "John Doe")).length ∧
      List.Forall₂ (fun p w => p ≠ [] ∧ p <+: w) ps
        ((wordsOf friendlyLatin1 (runes "John Doe")).take ps.length) :=
  C19_prefixes_in_order caseFragment friendlyLatin1 (runes "John Doe") 3 (runes "JDo") (by rfl)

/-! ## What the filters delete -/

theorem exists_replaceScan (P : Nat → Prop) (old new : Str) (hnew : ∃ c ∈ new, P c) :
    ∀ (s : Str) (k : Nat), (∃ c ∈ s.drop k, P c) →
      ∃ c ∈ strings.replaceScan old new k s, P c := by
  intro s
  induction s with
  | nil => intro k h; simp at h
  | cons a s ih =>
    intro k h
    cases k with
    | zero =>
      rw [strings.replaceScan]
      obtain ⟨c, hc, hP⟩ := h
      simp only [List.drop_zero] at hc
      split_ifs
      · obtain ⟨d, hd, hPd⟩ := hnew
        exact ⟨d, List.mem_append_left _ hd, hPd⟩
      · rcases List.mem_cons.mp hc with h1 | h1
        · exact ⟨c, by simp [h1], hP⟩
        · obtain ⟨d, hd, hPd⟩ := ih 0 ⟨c, by simpa using h1, hP⟩
          exact ⟨d, List.mem_cons_of_mem _ hd, hPd⟩
    | succ k =>
      rw [strings.replaceScan]
      exact ih k (by simpa using h)

theorem exists_Replace (P : Nat → Prop) (s old new : Str) (hs : ∃ c ∈ s, P c)
    (hnew : ∃ c ∈ new, P c) : ∃ c ∈ strings.Replace s old new, P c := by
  unfold strings.Replace
  split_ifs
  · exact hs
  · cases old with
    | nil =>
      obtain ⟨d, hd, hPd⟩ := hnew
      exact ⟨d, List.mem_append_left _ hd, hPd⟩
    | cons a o => exact exists_replaceScan P _ _ hnew s 0 (by simpa using hs)

theorem letter_not_delimiter (c : Nat) (h : isASCIILetter c) :
    c ≠ 0x2F ∧ isDelimiter c = false := by
  unfold isASCIILetter at h
  unfold isDelimiter
  have h1 : c ≠ 0x20 := by omega
  have h2 : c ≠ 0x2D := by omega
  exact ⟨by omega, by simp [h1, h2]⟩

/-- Folding with letter keys keeps a codepoint other than space and hyphen. -/
theorem foldFriendly_keeps_word (m : List (Str × List Str)) (hm : FriendlyKeysLetters m) :
    ∀ name : Str, (∃ c ∈ name, isDelimiter c = false) →
      ∃ c ∈ foldFriendly m name, isDelimiter c = false := by
  unfold foldFriendly
  induction m with
  | nil => intro name h; exact h
  | cons kv m ih =>
    intro name h
    simp only [List.foldl_cons]
    apply ih (fun kv2 h2 => hm kv2 (by simp [h2]))
    obtain ⟨hk1, hk2⟩ := hm kv (by simp)
    have hkey : ∃ c ∈ kv.1, isDelimiter c = false := by
      cases hkv : kv.1 with
      | nil => exact absurd hkv hk1
      | cons d rest =>
        exact ⟨d, by simp, (letter_not_delimiter d (hk2 d (by simp [hkv]))).2⟩
    have inner : ∀ (vs : List Str) (nm : Str), (∃ c ∈ nm, isDelimiter c = false) →
        ∃ c ∈ vs.foldl (fun name char => strings.Replace name char kv.1) nm,
          isDelimiter c = false := by
      intro vs
      induction vs with
      | nil => intro nm h2; exact h2
      | cons v vs ih2 =>
        intro nm h2
        simp only [List.foldl_cons]
        exact ih2 _ (exists_Replace _ nm v kv.1 h2 hkey)
    exact inner kv.2 name h

theorem regexpDeleteAll_of_hasMatch (m : Str → Bool) (w : Nat) (s : Str)
    (h : hasMatch m s = false) : regexpDeleteAll m w 0 s = s := by
  induction s with
  | nil => rfl
  | cons a s ih =>
    simp only [hasMatch, Bool.or_eq_false_iff] at h
    simp [regexpDeleteAll, h.1, ih h.2]

/-- A codepoint that no match of the pattern contains is never deleted. -/
theorem mem_regexpDeleteAll (m : Str → Bool) (w x : Nat)
    (hm : ∀ l : Str, m l = true → x ∉ l.take (w + 1)) :
    ∀ (s : Str) (k : Nat), x ∈ s.drop k → x ∈ regexpDeleteAll m w k s := by
  intro s
  induction s with
  | nil => intro k h; simp at h
  | cons a s ih =>
    intro k h
    cases k with
    | zero =>
      rw [regexpDeleteAll]
      simp only [List.drop_zero] at h
      by_cases hma : m (a :: s) = true
      · rw [if_pos hma]
        apply ih
        have h1 := hm (a :: s) hma
        have h2 : x ∈ (a :: s).take (w + 1) ++ (a :: s).drop (w + 1) := by
          rw [List.take_append_drop]; exact h
        rcases List.mem_append.mp h2 with h3 | h3
        · exact absurd h3 h1
        · simpa using h3
      · rw [if_neg hma]
        rcases List.mem_cons.mp h with h1 | h1
        · simp [h1]
        · exact List.mem_cons_of_mem _ (ih 0 (by simpa using h1))
    | succ k =>
      rw [regexpDeleteAll]
      exact ih k (by simpa using h)

theorem matchSpecial_take (x : Nat) (hx1 : x ≠ 0x2F) (hx2 : x ∉ specialClass) (l : Str)
    (h : matchSpecial l = true) : x ∉ l.take (2 + 1) := by
  rcases l with _ | ⟨a, _ | ⟨c, _ | ⟨b, r⟩⟩⟩
  · simp [matchSpecial] at h
  · simp [matchSpecial] at h
  · simp [matchSpecial] at h
  · simp only [matchSpecial, Bool.and_eq_true, beq_iff_eq] at h
    obtain ⟨⟨h1, h2⟩, h3⟩ := h
    have h2 : c ∈ specialClass := by simpa using h2
    simp only [List.take_succ_cons, List.take_zero, List.mem_cons, List.not_mem_nil,
      or_false, not_or]
    refine ⟨?_, ?_, ?_⟩
    · rw [h1]; exact hx1
    · intro h4; rw [h4] at hx2; exact hx2 h2
    · rw [h3]; exact hx1

theorem matchNonPrintable_take (x : Nat) (hx1 : x ≠ 0x2F) (hx2 : x ≠ 0x75)
    (hx3 : 0x20 ≤ x ∧ x ≤ 0x7E) (l : Str) (h : matchNonPrintable l = true) :
    x ∉ l.take (3 + 1) := by
  rcases l with _ | ⟨a, _ | ⟨c, _ | ⟨b, _ | ⟨d, r⟩⟩⟩⟩
  · simp [matchNonPrintable] at h
  · simp [matchNonPrintable] at h
  · simp [matchNonPrintable] at h
  · simp [matchNonPrintable] at h
  · simp only [matchNonPrintable, Bool.and_eq_true, beq_iff_eq, Bool.not_eq_true',
      Bool.and_eq_false_iff, decide_eq_false_iff_not, decide_eq_true_eq] at h
    obtain ⟨⟨⟨h1, h2⟩, h3⟩, h4⟩ := h
    simp only [List.take_succ_cons, List.take_zero, List.mem_cons, List.not_mem_nil,
      or_false, not_or]
    refine ⟨?_, ?_, ?_, ?_⟩
    · rw [h1]; exact hx1
    · intro h5
      rw [← h5] at h2
      rcases h2 with h2 | h2 <;> omega
    · rw [h3]; exact hx1
    · rw [h4]; exact hx2

theorem mem_replaceScan_of_not_mem (old new : Str) (x : Nat) (hold : old ≠ [])
    (hx : x ∉ old) :
    ∀ (s : Str) (k : Nat), x ∈ s.drop k → x ∈ strings.replaceScan old new k s := by
  intro s
  induction s with
  | nil => intro k h; simp at h
  | cons a s ih =>
    intro k h
    cases k with
    | zero =>
      rw [strings.replaceScan]
      simp only [List.drop_zero] at h
      by_cases hp : old.isPrefixOf (a :: s) = true
      · rw [if_pos hp]
        apply List.mem_append_right
        apply ih
        obtain ⟨tl, htl⟩ := List.isPrefixOf_iff_prefix.mp hp
        cases old with
        | nil => exact absurd rfl hold
        | cons o os =>
          simp only [List.cons_append, List.cons.injEq] at htl
          obtain ⟨hoa, hs⟩ := htl
          have hxs : x ∈ os ++ tl := by
            rcases List.mem_cons.mp h with h1 | h1
            · exact absurd (by rw [h1, ← hoa]; simp) hx
            · rw [hs]; exact h1
          rcases List.mem_append.mp hxs with h2 | h2
          · exact absurd (List.mem_cons_of_mem _ h2) hx
          · rw [← hs]
            simpa using h2
      · rw [if_neg hp]
        rcases List.mem_cons.mp h with h1 | h1
        · simp [h1]
        · exact List.mem_cons_of_mem _ (ih 0 (by simpa using h1))
    | succ k =>
      rw [strings.replaceScan]
      exact ih k (by simpa using h)

theorem mem_Replace_of_not_mem (s old new : Str) (x : Nat) (hs : x ∈ s) (hx : x ∉ old) :
    x ∈ strings.Replace s old new := by
  unfold strings.Replace
  split_ifs
  · exact hs
  · cases old with
    | nil =>
      apply List.mem_append_right
      simp only [List.mem_flatten, List.mem_map]
      exact ⟨x :: new, ⟨x, hs, rfl⟩, by simp⟩
    | cons a o =>
      exact mem_replaceScan_of_not_mem _ _ x (by simp) hx s 0 (by simpa using hs)

/-- A codepoint that occurs in no variant is kept by the folding. -/
theorem mem_foldFriendly (m : List (Str × List Str)) (x : Nat)
    (hm : ∀ kv ∈ m, ∀ v ∈ kv.2, x ∉ v) :
    ∀ name : Str, x ∈ name → x ∈ foldFriendly m name := by
  unfold foldFriendly
  induction m with
  | nil => intro name h; exact h
  | cons kv m ih =>
    intro name h
    simp only [List.foldl_cons]
    apply ih (fun kv2 h2 => hm kv2 (by simp [h2]))
    have inner : ∀ (vs : List Str), (∀ v ∈ vs, x ∉ v) → ∀ nm : Str, x ∈ nm →
        x ∈ vs.foldl (fun name char => strings.Replace name char kv.1) nm := by
      intro vs
      induction vs with
      | nil => intro _ nm h2; exact h2
      | cons v vs ih2 =>
        intro hv nm h2
        simp only [List.foldl_cons]
        exact ih2 (fun v2 h3 => hv v2 (by simp [h3])) _
          (mem_Replace_of_not_mem nm v kv.1 x h2 (hv v (by simp)))
    exact inner kv.2 (hm kv (by simp)) name h

theorem filterName_eq (m : List (Str × List Str)) (name : Str) :
    filterName m name = stripNonPrintable (foldFriendly m (replaceSpecialCharacters name)) :=
  rfl

theorem fieldsLoop_ne_nil (f : Nat → Bool) :
    ∀ (s cur : Str), (cur ≠ [] ∨ ∃ c ∈ s, f c = false) → strings.fieldsLoop f s cur ≠ [] := by
  intro s
  induction s with
  | nil =>
    intro cur h
    rcases h with h | ⟨c, hc, _⟩
    · simp [strings.fieldsLoop, h]
    · simp at hc
  | cons a s ih =>
    intro cur h
    rw [strings.fieldsLoop]
    by_cases hfa : f a = true
    · rw [if_pos hfa]
      by_cases hcur : cur = []
      · rw [if_pos hcur]
        apply ih
        right
        rcases h with h | ⟨c, hc, hfc⟩
        · exact absurd hcur h
        · rcases List.mem_cons.mp hc with h1 | h1
          · rw [h1, hfa] at hfc
            exact absurd hfc (by simp)
          · exact ⟨c, h1, hfc⟩
      · rw [if_neg hcur]
        simp
    · rw [if_neg hfa]
      apply ih
      left
      simp

theorem wordLoop_initials_prefix (t : CaseTables) (n : Nat) :
    ∀ (ws : List Str) (i : Nat) (opts : generatorOptions) (initials r : Str),
      wordLoop t n i ws opts initials = some r → initials <+: r := by
  intro ws
  induction ws with
  | nil =>
    intro i opts initials r h
    simp only [wordLoop, Option.some.injEq] at h
    rw [h]
  | cons w rest ih =>
    intro i opts initials r h
    rw [wordLoop] at h
    by_cases h0 : opts.remainingLength = 0
    · rw [if_pos h0] at h
      simp only [Option.some.injEq] at h
      rw [h]
    · rw [if_neg h0] at h
      cases hg : getInitial t w (initialLength n i opts.remainingLength) opts with
      | none => rw [hg] at h; exact absurd h (by simp)
      | some initial =>
        rw [hg] at h
        have hp := ih _ _ _ _ h
        refine List.IsPrefix.trans ?_ hp
        split_ifs
        · rw [List.append_assoc]; exact List.prefix_append _ _
        · exact List.prefix_append _ _

/-- When the first word visited contributes, a returned result is non-empty. -/
theorem wordLoop_nonempty (t : CaseTables) (n i : Nat) (w : Str) (rest : List Str)
    (opts : generatorOptions) (r : Str) (hw : w ≠ []) (hne : opts.remainingLength ≠ 0)
    (hl : 0 < initialLength n i opts.remainingLength)
    (h : wordLoop t n i (w :: rest) opts [] = some r) : r ≠ [] := by
  rw [wordLoop_step t n i w rest opts [] hw hne hl] at h
  have hp := wordLoop_initials_prefix t _ _ _ _ _ _ h
  have hpos := piece_length_pos t opts w _ hw hl
  have hpiece : applyCase t opts (w.take (initialLength n i opts.remainingLength).toNat) ≠ [] :=
    fun h0 => by rw [h0] at hpos; simp at hpos
  intro hr
  rw [hr] at hp
  have h3 := List.prefix_nil.mp hp
  split_ifs at h3
  · simp only [List.nil_append, List.append_eq_nil] at h3
    exact hpiece h3.1
  · simp only [List.nil_append] at h3
    exact hpiece h3

/-- With the default options a returned result is non-empty as soon as the
filtered name has a word. -/
theorem GetInitials_default_nonempty (t : CaseTables) (m : List (Str × List Str)) (name : Str)
    (hwords : wordsOf m name ≠ []) (r : Str) (h : GetInitials t m name [] = some r) :
    r ≠ [] := by
  rw [GetInitials_unfold t m name [] rfl rfl] at h
  have hn : ¬ ((wordsOf m name).length = 0) := fun h0 => hwords (List.length_eq_zero.mp h0)
  rw [if_neg hn] at h
  have hne := wordsOf_ne_nil m name
  cases hw : wordsOf m name with
  | nil => exact absurd hw hwords
  | cons w rest =>
    rw [hw] at h hne
    have hwne : w ≠ [] := hne w (by simp)
    exact wordLoop_nonempty t (w :: rest).length 0 w rest _ r hwne
      (by show (2 : Int) ≠ 0; omega)
      (by
        show 0 < initialLength (w :: rest).length 0 2
        exact (initialLength_bounds (w :: rest).length 0 2 (by omega) (by simp)).1)
      h

theorem wordsOf_ne_nil_of_mem (m : List (Str × List Str)) (name : Str)
    (h : ∃ c ∈ filterName m name, isDelimiter c = false) : wordsOf m name ≠ [] := by
  unfold wordsOf strings.FieldsFunc
  exact fieldsLoop_ne_nil _ _ _ (Or.inr h)

/-- C13, as stated, fails: the name "/@/" has a codepoint other than space and
hyphen, yet the first pattern deletes it whole, no word is left and
`GetInitials` returns the empty string.  The second pattern does the same to
the name `/`, `U+1F605`, `/`, `u`. -/
theorem C13_filter_destroys_name :
    (∃ c ∈ runes "/@/", c ≠ 0x20 ∧ c ≠ 0x2D) ∧
    wordsOf friendlyLatin1 (runes "/@/") = [] ∧
    GetInitials caseFragment friendlyLatin1 (runes "/@/") [] = some [] ∧
    wordsOf friendlyLatin1 [0x2F, 0x1F605, 0x2F, 0x75] = [] :=
  ⟨⟨0x2F, by decide, by decide, by decide⟩, by rfl, by rfl, by rfl⟩

/-- C13, amended: filtering destroys a name only through a pattern match.
Let `x` be a codepoint of the name other than space, hyphen and the special
characters, which no match of the first pattern contains (the pattern has no
match in the name, or `x` is not a slash).  If the second pattern has no match
in the folded name and the keys of the map are ASCII letters, or if `x` is a
printable ASCII codepoint other than slash and `u` that occurs in no variant
(so that neither the folding nor the second pattern can remove it), then the
filtered name still contains at least one word.  And when the filtered name
has a word, `GetInitials` with the default options, whenever it returns,
returns a non-empty string. -/
theorem C13_filtering_keeps_a_word (t : CaseTables) (m : List (Str × List Str))
    (name : Str) :
    (∀ x ∈ name, x ≠ 0x20 → x ≠ 0x2D → x ∉ specialClass →
      (hasMatch matchSpecial name = false ∨ x ≠ 0x2F) →
      ((FriendlyKeysLetters m ∧
          hasMatch matchNonPrintable (foldFriendly m (replaceSpecialCharacters name)) = false) ∨
        ((∀ kv ∈ m, ∀ v ∈ kv.2, x ∉ v) ∧ 0x20 ≤ x ∧ x ≤ 0x7E ∧ x ≠ 0x2F ∧ x ≠ 0x75)) →
      wordsOf m name ≠ []) ∧
    (wordsOf m name ≠ [] → ∀ r : Str, GetInitials t m name [] = some r → r ≠ []) := by
  refine ⟨?_, ?_⟩
  · intro x hxn hx1 hx2 hx3 hfirst hsecond
    have hdel : isDelimiter x = false := by simp [isDelimiter, hx1, hx2]
    have hmem1 : x ∈ replaceSpecialCharacters name := by
      rcases hfirst with h | h
      · have e1 : replaceSpecialCharacters name = name := regexpDeleteAll_of_hasMatch _ _ _ h
        rw [e1]; exact hxn
      · exact mem_regexpDeleteAll matchSpecial 2 x (matchSpecial_take x h hx3) name 0
          (by simpa using hxn)
    apply wordsOf_ne_nil_of_mem
    rw [filterName_eq]
    rcases hsecond with ⟨hkeys, h2⟩ | ⟨hm, hp1, hp2, hp3, hp4⟩
    · have e2 : stripNonPrintable (foldFriendly m (replaceSpecialCharacters name))
          = foldFriendly m (replaceSpecialCharacters name) :=
        regexpDeleteAll_of_hasMatch _ _ _ h2
      rw [e2]
      exact foldFriendly_keeps_word m hkeys _ ⟨x, hmem1, hdel⟩
    · refine ⟨x, ?_, hdel⟩
      apply mem_regexpDeleteAll matchNonPrintable 3 x
        (matchNonPrintable_take x hp3 hp4 ⟨hp1, hp2⟩) _ 0
      simp only [List.drop_zero]
      exact mem_foldFriendly m x hm _ hmem1
  · intro hwords r h
    exact GetInitials_default_nonempty t m name hwords r h

/-- C13, amended, at "AC/DC" (a slash, no match; initials "AC"), at the name
`U+1F605`, ` `, `/@/` (the match is deleted, the emoji is kept) and at "a/@/b"
(the match is deleted, `a` cannot be). -/
theorem C13_filtering_keeps_a_word_witness :
    wordsOf friendlyLatin1 (runes "AC/DC") ≠ [] ∧
    wordsOf friendlyLatin1 [0x1F605, 0x20, 0x2F, 0x40, 0x2F] ≠ [] ∧
    wordsOf friendlyLatin1 (runes "a/@/b") ≠ [] ∧
    runes "AC" ≠ [] :=
  ⟨(C13_filtering_keeps_a_word caseFragment friendlyLatin1 (runes "AC/DC")).1 0x41
      (by decide) (by decide) (by decide) (by decide) (Or.inl (by rfl))
      (Or.inl ⟨by decide, by rfl⟩),
   (C13_filtering_keeps_a_word caseFragment friendlyLatin1
      [0x1F605, 0x20, 0x2F, 0x40, 0x2F]).1 0x1F605
      (by decide) (by decide) (by decide) (by decide) (Or.inr (by decide))
      (Or.inl ⟨by decide, by rfl⟩),
   (C13_filtering_keeps_a_word caseFragment friendlyLatin1 (runes "a/@/b")).1 0x61
      (by decide) (by decide) (by decide) (by decide) (Or.inr (by decide))
      (Or.inr ⟨by decide, by decide, by decide, by decide, by decide⟩),
   (C13_filtering_keeps_a_word caseFragment friendlyLatin1 (runes "AC/DC")).2
      ((C13_filtering_keeps_a_word caseFragment friendlyLatin1 (runes "AC/DC")).1 0x41
        (by decide) (by decide) (by decide) (by decide) (Or.inl (by rfl))
        (Or.inl ⟨by decide, by rfl⟩))
      (runes "AC") (by rfl)⟩

end Initials
